import Mathlib

/-!
# Verification of the batch/job scheduling core (`batch_processor.py`)

Shallow embedding of the batch PDF processor's scheduling engine:
the job/batch store, the FIFO work queue, the single rate-limited
worker loop, batch-status aggregation, cancellation and error handling.

The embedding mirrors the Python source:
* `JobStatus`, `PDFJob`, `BatchJob` mirror the dataclasses;
* `BatchJob.completed_jobs` etc. mirror the `@property` metrics,
  including the floating-point computation of `progress`
  (`int((completed_jobs / total_jobs) * 100)`), which is modelled by an
  exact IEEE-754 binary64 round-to-nearest-even simulation over ℚ;
* `St` is the processor state (`_jobs`, `_batches`, `_queue`, plus the
  identity of the job currently inside `_process_job`, and a counter of
  charged inter-job rate-limit delays);
* `createBatch`, `addSingleJob`, `getJob`, `getBatch`, `cancelBatch`
  mirror the public API; `workerBegin`/`workerFinish` split one
  iteration of `_process_queue`/`_process_job` at the external call.
-/

/-- Status of a batch processing job (`class JobStatus(str, Enum)`). -/
inductive JobStatus where
  | pending
  | processing
  | completed
  | failed
  | cancelled
deriving DecidableEq, BEq, Repr

/-- A single PDF processing job (`@dataclass class PDFJob`).
`startedAt`/`completedAt` record only whether the timestamp was set;
`invoicesFound` stands for the `report` field (present after a
successful `validate_pdf`, carrying `report.invoices_found`). -/
structure PDFJob where
  job_id : String
  file_path : String
  filename : String
  status : JobStatus := JobStatus.pending
  startedAt : Bool := false
  completedAt : Bool := false
  invoicesFound : Option Nat := none
  excel_path : Option String := none
  error : Option String := none
  progress : Nat := 0
deriving DecidableEq, Repr

/-! ## Exact binary64 model

`BatchJob.progress` is computed in Python as
`int((self.completed_jobs / self.total_jobs) * 100)`: a correctly
rounded binary64 division of two nonnegative integers, a binary64
multiplication by `100.0` (exactly representable), and truncation
toward zero.  All values are nonnegative, so truncation is the floor.
The two roundings are modelled exactly over mantissa–exponent pairs
`(m, p)` denoting `m * 2 ^ p` (round to nearest, ties to even, gradual
underflow at `2 ^ (-1074)`; overflow cannot occur for these values),
entirely in `Nat`/`Int` arithmetic so the kernel can evaluate it. -/

/-- Fuel-driven base-2 logarithm on `Nat` (structural, kernel-reducible). -/
def log2fuel : Nat → Nat → Nat
  | 0, _ => 0
  | f + 1, n => if 2 ≤ n then log2fuel f (n / 2) + 1 else 0

/-- Smallest `m` with `b ≤ a * 2 ^ m`, found by doubling (fuel-driven). -/
def mfind (fuel : Nat) (a b : Nat) : Nat :=
  match fuel with
  | 0 => 0
  | f + 1 => if b ≤ a then 0 else mfind f (2 * a) b + 1

/-- Binade exponent of the positive fraction `a / b`:
the `e` with `2 ^ e ≤ a / b < 2 ^ (e + 1)`. -/
def frExp (a b : Nat) : Int :=
  if b ≤ a then Int.ofNat (log2fuel (a / b) (a / b))
  else -(Int.ofNat (mfind b a b))

/-- Round the fraction `num / den` to the nearest integer, ties to even. -/
def roundMantissa (num den : Nat) : Nat :=
  let k := num / den
  let r := num % den
  if den < 2 * r then k + 1
  else if 2 * r < den then k
  else if k % 2 = 0 then k else k + 1

/-- Round the nonnegative fraction `a / b` to the nearest binary64
value, returned as a mantissa–exponent pair. -/
def roundFE (a b : Nat) : Nat × Int :=
  if a = 0 then (0, 0)
  else
    let e := frExp a b
    let p : Int := max (e - 52) (-1074)
    if 0 ≤ p then (roundMantissa a (b * 2 ^ p.toNat), p)
    else (roundMantissa (a * 2 ^ (-p).toNat) b, p)

/-- The value `m * 2 ^ p` as an exact fraction. -/
def fracOfFE : Nat × Int → Nat × Nat
  | (m, p) => if 0 ≤ p then (m * 2 ^ p.toNat, 1) else (m, 2 ^ (-p).toNat)

/-- Binary64 true division of two nonnegative integers
(Python `completed_jobs / total_jobs`): correctly rounded. -/
def fdiv64 (a b : Nat) : Nat × Int := roundFE a b

/-- Binary64 product with the exactly representable constant `100.0`:
the exact product re-rounded to binary64. -/
def fmul100F (x : Nat × Int) : Nat × Int :=
  let f := fracOfFE (x.1 * 100, x.2)
  roundFE f.1 f.2

/-- Python `int(x)` of the final nonnegative float value (floor). -/
def pyInt64 (x : Nat × Int) : Nat :=
  let f := fracOfFE x
  f.1 / f.2

/-- `int((c / t) * 100)` exactly as CPython evaluates it in binary64. -/
def pyProgress (c t : Nat) : Nat := pyInt64 (fmul100F (fdiv64 c t))

/-- A batch of PDF processing jobs (`@dataclass class BatchJob`).
The batch holds its member jobs directly, as the source does. -/
structure BatchJob where
  batch_id : String
  jobs : List PDFJob := []
  status : JobStatus := JobStatus.pending
deriving DecidableEq, Repr

namespace BatchJob

/-- `total_jobs` property: `len(self.jobs)`. -/
def total_jobs (b : BatchJob) : Nat := b.jobs.length

/-- `completed_jobs` property:
`sum(1 for j in jobs if j.status in [COMPLETED, FAILED])`. -/
def completed_jobs (b : BatchJob) : Nat :=
  b.jobs.countP (fun j => [JobStatus.completed, JobStatus.failed].contains j.status)

/-- `successful_jobs` property: `sum(1 for j in jobs if j.status == COMPLETED)`. -/
def successful_jobs (b : BatchJob) : Nat :=
  b.jobs.countP (fun j => j.status == JobStatus.completed)

/-- `failed_jobs` property: `sum(1 for j in jobs if j.status == FAILED)`. -/
def failed_jobs (b : BatchJob) : Nat :=
  b.jobs.countP (fun j => j.status == JobStatus.failed)

/-- `progress` property:
`0` if there are no jobs, else `int((completed_jobs / total_jobs) * 100)`
computed in binary64 arithmetic. -/
def progress (b : BatchJob) : Nat :=
  if b.total_jobs = 0 then 0
  else pyProgress b.completed_jobs b.total_jobs

end BatchJob

/-! ## Processor state and operations

The processor keeps `_jobs : Dict[str, PDFJob]` and
`_batches : Dict[str, BatchJob]`, a FIFO `_queue` of
`(batch_id | None, job_id)` pairs, and a single background worker.
In Python the batch object holds references to the very job objects
stored in `_jobs`; the embedding therefore keeps jobs in one
association list and lets a batch record hold the member job ids, with
`batchView` reconstructing the aggregated `BatchJob` object.

One iteration of the worker (`_process_queue` body plus `_process_job`)
is split at the external call into `workerBegin` (dequeue, skip-check,
transition to Processing) and `workerFinish` (outcome of
`validate_pdf` / `export_to_excel` / the move to the processed folder,
terminal transition, batch completion check, rate-limit delay).
`St.current` records the job inside `_process_job`, and `St.delays`
counts how many inter-job rate-limit delays have been charged. -/

/-- The result of the filesystem tests `path.exists()` and
`path.suffix` applied to one input path. -/
structure PathInfo where
  path : String
  name : String
  present : Bool
  suffix : String
deriving DecidableEq, Repr

/-- Python `str.lower()`, character by character (ASCII suffices for
the suffixes handled here; `String.toLower` is the same map but is not
kernel-reducible). -/
def lowerStr (s : String) : String := ⟨s.data.map Char.toLower⟩

/-- The admission test of `create_batch`:
`path.exists() and path.suffix.lower() == '.pdf'`. -/
def validPdf (p : PathInfo) : Bool := p.present && (lowerStr p.suffix == ".pdf")

/-- A freshly created job (`PDFJob(job_id=..., file_path=..., filename=...)`,
all remaining fields at their dataclass defaults). -/
def mkPendingJob (job_id : String) (p : PathInfo) : PDFJob :=
  { job_id := job_id, file_path := p.path, filename := p.name }

/-- A batch as stored: its status plus the ids of its member jobs in
submission order (the Python object holds the job objects themselves;
the jobs live in the store, see `batchView`). -/
structure BatchRec where
  status : JobStatus
  jobIds : List String
deriving DecidableEq, Repr

/-- Association-list lookup (Python dict read `d.get(k)`). -/
def getA {α : Type} : List (String × α) → String → Option α
  | [], _ => none
  | p :: l, k => if k = p.1 then some p.2 else getA l k

/-- Rewrite every stored value in place, keyed access preserved
(model of in-place mutation of the objects held by a Python dict). -/
def mapVals {α : Type} (g : String → α → α) (l : List (String × α)) :
    List (String × α) :=
  l.map (fun p => (p.1, g p.1 p.2))

/-- Update the value stored under one key. -/
def setA {α : Type} (l : List (String × α)) (k : String) (f : α → α) :
    List (String × α) :=
  mapVals (fun k' v => if k' = k then f v else v) l

/-- State of a `BatchProcessor`. -/
structure St where
  jobs : List (String × PDFJob)
  batches : List (String × BatchRec)
  queue : List (Option String × String)
  current : Option (Option String × String)
  delays : Nat
deriving DecidableEq, Repr

/-- The freshly constructed processor: empty store, empty queue, idle. -/
def initSt : St := ⟨[], [], [], none, 0⟩

/-- The aggregated `BatchJob` object for a batch id: the batch's member
job objects, looked up in the store (in Python these are the same
objects by aliasing). -/
def batchView (s : St) (batch_id : String) : Option BatchJob :=
  (getA s.batches batch_id).map fun br =>
    { batch_id := batch_id
      jobs := br.jobIds.filterMap (getA s.jobs)
      status := br.status }

/-- `create_batch(file_paths)`: one fresh Pending job per path that
exists and has suffix `.pdf` (others are silently skipped), batch and
jobs registered, all member job references enqueued in order, the
created batch returned.  `items` pairs each path with the fresh uuid
the loop would draw for it. -/
def create_batch (s : St) (batch_id : String)
    (items : List (String × PathInfo)) : St × BatchRec :=
  let valid := items.filter (fun it => validPdf it.2)
  let br : BatchRec := ⟨JobStatus.pending, valid.map (·.1)⟩
  ({ s with
      jobs := s.jobs ++ valid.map (fun it => (it.1, mkPendingJob it.1 it.2))
      batches := s.batches ++ [(batch_id, br)]
      queue := s.queue ++ valid.map (fun it => (some batch_id, it.1)) }, br)

/-- The two exceptions `add_single_job` can raise. -/
inductive AddError where
  | fileNotFound (msg : String)
  | valueError (msg : String)
deriving DecidableEq, Repr

/-- `add_single_job(file_path)`: raises `FileNotFoundError` when the
path does not exist, `ValueError` when its suffix is not `.pdf`;
otherwise registers a fresh Pending job and enqueues `(None, job_id)`. -/
def add_single_job (s : St) (job_id : String) (p : PathInfo) :
    Except AddError (St × PDFJob) :=
  if p.present = false then
    Except.error (AddError.fileNotFound ("File not found: " ++ p.path))
  else if lowerStr p.suffix ≠ ".pdf" then
    Except.error (AddError.valueError "Only PDF files are allowed")
  else
    let job := mkPendingJob job_id p
    Except.ok
      ({ s with jobs := s.jobs ++ [(job_id, job)]
                queue := s.queue ++ [(none, job_id)] }, job)

/-- `get_job(job_id)`: store lookup, `None` when absent (a pure read). -/
def get_job (s : St) (job_id : String) : Option PDFJob := getA s.jobs job_id

/-- `get_batch(batch_id)`: store lookup, `None` when absent (a pure read). -/
def get_batch (s : St) (batch_id : String) : Option BatchRec :=
  getA s.batches batch_id

/-- `cancel_batch(batch_id)`: unknown id returns `False` and changes
nothing; otherwise every member job still Pending is set to Cancelled,
the batch's status is set to Cancelled (whatever it was), `True`. -/
def cancel_batch (s : St) (batch_id : String) : Bool × St :=
  match getA s.batches batch_id with
  | none => (false, s)
  | some br =>
    (true,
     { s with
        jobs := mapVals (fun k jb =>
          if k ∈ br.jobIds ∧ jb.status = JobStatus.pending then
            { jb with status := JobStatus.cancelled }
          else jb) s.jobs
        batches := setA s.batches batch_id
          (fun b => { b with status := JobStatus.cancelled }) })

/-- The `if batch: batch.status = PROCESSING` step of `_process_job`
(`batch` is `self._batches.get(batch_id) if batch_id else None`, and a
`setA` on an unregistered id is a no-op, matching the `None` case). -/
def beginBatches (batches : List (String × BatchRec)) (b : Option String) :
    List (String × BatchRec) :=
  match b with
  | none => batches
  | some bid =>
      setA batches bid (fun br => { br with status := JobStatus.processing })

/-- The job-side effect of the start of `_process_job`:
status Processing, `started_at` set, progress 10. -/
def startJobUpdate (jb : PDFJob) : PDFJob :=
  { jb with status := JobStatus.processing, startedAt := true, progress := 10 }

/-- First half of a worker iteration: dequeue the next entry; if the
referenced job is missing or already Cancelled, discard it and return
(no status change, no delay charged); otherwise transition the job to
Processing (`started_at` set, progress 10), set its batch (if any and
registered) to Processing, and remember it as the job being executed. -/
def workerBegin (s : St) : St :=
  match s.current with
  | some _ => s
  | none =>
    match s.queue with
    | [] => s
    | (b, j) :: rest =>
      match getA s.jobs j with
      | none => { s with queue := rest }
      | some jb =>
        if jb.status = JobStatus.cancelled then { s with queue := rest }
        else
          { s with
              queue := rest
              jobs := setA s.jobs j startJobUpdate
              batches := beginBatches s.batches b
              current := some (b, j) }

/-- Outcome of the body of `_process_job` after the job went to
Processing: either every step succeeded, or the first exception came
from `validate_pdf`, from `export_to_excel` (only reached when the
report found invoices), or from the move into the processed folder. -/
inductive ExecOutcome where
  | success (invoices : Nat) (excel : String)
  | failValidate (msg : String)
  | failExport (invoices : Nat) (msg : String)
  | failMove (invoices : Nat) (excel : String) (msg : String)
deriving DecidableEq, Repr

/-- Effect of the outcome on the job object, mirroring the milestone
order of `_process_job`: progress 30 before `validate_pdf`, report then
progress 70, Excel export when `invoices_found > 0`, progress 90, move,
then Completed with progress 100 — or, in the `except` branch, Failed
with the error message recorded, `completed_at` set and progress left
at its last observed value. -/
def finishJobUpdate (o : ExecOutcome) (jb : PDFJob) : PDFJob :=
  match o with
  | ExecOutcome.success inv excel =>
      { jb with status := JobStatus.completed, completedAt := true,
                progress := 100, invoicesFound := some inv,
                excel_path := if inv > 0 then some excel else jb.excel_path }
  | ExecOutcome.failValidate msg =>
      { jb with status := JobStatus.failed, completedAt := true,
                error := some msg, progress := 30 }
  | ExecOutcome.failExport inv msg =>
      { jb with status := JobStatus.failed, completedAt := true,
                error := some msg, invoicesFound := some inv, progress := 70 }
  | ExecOutcome.failMove inv excel msg =>
      { jb with status := JobStatus.failed, completedAt := true,
                error := some msg, invoicesFound := some inv, progress := 90,
                excel_path := if inv > 0 then some excel else jb.excel_path }

/-- The terminal statuses a batch-completion check accepts
(`[COMPLETED, FAILED, CANCELLED]`). -/
def isDoneStatus (st : JobStatus) : Bool :=
  [JobStatus.completed, JobStatus.failed, JobStatus.cancelled].contains st

/-- The `all_done` test of `_process_job`: every member job of the
batch is Completed, Failed or Cancelled (the source reads the job
objects aliased into `batch.jobs`; a member id absent from the store
cannot arise and counts as not done). -/
def allMembersDone (jobs : List (String × PDFJob)) (br : BatchRec) : Bool :=
  br.jobIds.all (fun jid =>
    match getA jobs jid with
    | some jb => isDoneStatus jb.status
    | none => false)

/-- The batch-completion step of `_process_job`: when the finished job
belongs to a registered batch whose member jobs are now all terminal,
the batch's status is set to Completed — regardless of what it was. -/
def batchCompleteCheck (batches : List (String × BatchRec))
    (jobs : List (String × PDFJob)) (b : Option String) :
    List (String × BatchRec) :=
  match b with
  | none => batches
  | some bid =>
    match getA batches bid with
    | none => batches
    | some br =>
      if allMembersDone jobs br then
        setA batches bid (fun b' => { b' with status := JobStatus.completed })
      else batches

/-- Second half of a worker iteration: apply the execution outcome to
the running job, then run the batch-completion check (callbacks are
external effects and are swallowed by the source; they do not touch
this state).  Finally charge the inter-job rate-limit delay when more
work is queued. -/
def workerFinish (s : St) (o : ExecOutcome) : St :=
  match s.current with
  | none => s
  | some (b, j) =>
    let jobs' := setA s.jobs j (finishJobUpdate o)
    { s with jobs := jobs'
             batches := batchCompleteCheck s.batches jobs' b
             current := none
             delays := s.delays + (if s.queue.isEmpty then 0 else 1) }

/-! ## Events and reachability

The actions that mutate the processor state.  `Ev.createB` carries the
fresh ids drawn for each submitted path, `Ev.wfinish` the outcome of
the external work; `EvOK` records the freshness the source obtains
from `uuid.uuid4()` — creation events use ids not yet in the store. -/

/-- A state-mutating action of the system. -/
inductive Ev where
  | createB (batch_id : String) (items : List (String × PathInfo))
  | singleJ (job_id : String) (p : PathInfo)
  | cancelB (batch_id : String)
  | wbegin
  | wfinish (o : ExecOutcome)

/-- Effect of an action on the state.  A raising `add_single_job`
leaves the state untouched. -/
def applyEv (s : St) : Ev → St
  | Ev.createB bid items => (create_batch s bid items).1
  | Ev.singleJ jid p =>
      match add_single_job s jid p with
      | Except.ok (s', _) => s'
      | Except.error _ => s
  | Ev.cancelB bid => (cancel_batch s bid).2
  | Ev.wbegin => workerBegin s
  | Ev.wfinish o => workerFinish s o

/-- Side conditions under which the system fires an action: ids drawn
by `uuid.uuid4()` at submission are fresh and pairwise distinct. -/
def EvOK (s : St) : Ev → Prop
  | Ev.createB bid items =>
      getA s.batches bid = none ∧ (items.map (·.1)).Nodup ∧
      ∀ it ∈ items, getA s.jobs it.1 = none
  | Ev.singleJ jid _ => getA s.jobs jid = none
  | _ => True

/-- States the system can actually be in: the fresh processor, closed
under fired actions. -/
inductive Reachable : St → Prop
  | start : Reachable initSt
  | step {s e} : Reachable s → EvOK s e → Reachable (applyEv s e)

/-! ## Association-list toolkit -/

theorem getA_append {α : Type} (l₁ l₂ : List (String × α)) (k : String) :
    getA (l₁ ++ l₂) k = ((getA l₁ k).rec (getA l₂ k) (fun v => some v) : Option α) := by
  induction l₁ with
  | nil => simp [getA]
  | cons p l ih =>
    simp only [List.cons_append, getA]
    by_cases h : k = p.1 <;> simp [h, ih]

theorem getA_append_left {α : Type} {l₁ : List (String × α)} {k : String}
    {v : α} (l₂ : List (String × α)) (h : getA l₁ k = some v) :
    getA (l₁ ++ l₂) k = some v := by
  rw [getA_append, h]

theorem getA_append_right {α : Type} {l₁ : List (String × α)} {k : String}
    (l₂ : List (String × α)) (h : getA l₁ k = none) :
    getA (l₁ ++ l₂) k = getA l₂ k := by
  rw [getA_append, h]

theorem getA_mapVals {α : Type} (g : String → α → α)
    (l : List (String × α)) (k : String) :
    getA (mapVals g l) k = (getA l k).map (g k) := by
  induction l with
  | nil => simp [getA, mapVals]
  | cons p l ih =>
    simp only [mapVals, List.map_cons, getA]
    by_cases h : k = p.1
    · subst h; simp
    · simpa [h, mapVals] using ih

theorem getA_setA_self {α : Type} {l : List (String × α)} {k : String}
    (f : α → α) :
    getA (setA l k f) k = (getA l k).map f := by
  rw [setA, getA_mapVals]; simp

theorem getA_setA_ne {α : Type} {l : List (String × α)} {k k' : String}
    (f : α → α) (h : k' ≠ k) :
    getA (setA l k f) k' = getA l k' := by
  rw [setA, getA_mapVals]
  cases hg : getA l k' <;> simp [h]

theorem getA_mem {α : Type} {l : List (String × α)} {k : String} {v : α}
    (h : getA l k = some v) : (k, v) ∈ l := by
  induction l with
  | nil => simp [getA] at h
  | cons p l ih =>
    simp only [getA] at h
    by_cases hk : k = p.1
    · simp only [hk, if_pos rfl] at h
      subst hk
      cases h
      exact List.mem_cons_self _ _
    · exact List.mem_cons_of_mem _ (ih (by simpa [hk] using h))

theorem getA_eq_none_iff {α : Type} (l : List (String × α)) (k : String) :
    getA l k = none ↔ ∀ p ∈ l, p.1 ≠ k := by
  induction l with
  | nil => simp [getA]
  | cons p l ih =>
    simp only [getA, List.mem_cons]
    by_cases hk : k = p.1
    · simp [hk]
    · simp only [if_neg hk, ih]
      constructor
      · rintro h q (rfl | hq)
        · exact fun hc => hk hc.symm
        · exact h q hq
      · intro h q hq
        exact h q (Or.inr hq)

theorem getA_map_pair {β : Type} (f : β → String) (g : β → PDFJob)
    (l : List β) (hn : (l.map f).Nodup) :
    ∀ b ∈ l, getA (l.map (fun x => (f x, g x))) (f b) = some (g b) := by
  induction l with
  | nil => simp
  | cons x l ih =>
    intro b hb
    simp only [List.map_cons, List.nodup_cons] at hn
    rcases List.mem_cons.mp hb with rfl | hb'
    · simp [getA]
    · have hne : f b ≠ f x := fun hc =>
        hn.1 (hc ▸ List.mem_map_of_mem f hb')
      simp only [List.map_cons, getA, if_neg hne]
      exact ih hn.2 b hb'

/-! ## Reachability invariants

The structural facts that hold in every reachable state and make the
state-machine claims true: the job under execution exists and is
Processing; queued references point at Pending-or-Cancelled jobs; a job
id is queued at most once and never while under execution; a queued
batch reference is registered and owns the job; member jobs of a batch
exist; a Cancelled batch has no Pending member; a Completed batch has
only terminal members; the executing job's batch is Processing or
Cancelled. -/

structure SysInv (s : St) : Prop where
  curProc : ∀ b j, s.current = some (b, j) →
    ∃ jb, getA s.jobs j = some jb ∧ jb.status = JobStatus.processing
  queueJobs : ∀ b j, (b, j) ∈ s.queue →
    ∃ jb, getA s.jobs j = some jb ∧
      (jb.status = JobStatus.pending ∨ jb.status = JobStatus.cancelled)
  queueNodup : (s.queue.map (·.2)).Nodup
  curNotQueued : ∀ b j b' j', s.current = some (b, j) → (b', j') ∈ s.queue →
    j' ≠ j
  queueBatch : ∀ bid j, (some bid, j) ∈ s.queue →
    ∃ br, getA s.batches bid = some br ∧ j ∈ br.jobIds
  memExists : ∀ bid br, getA s.batches bid = some br →
    ∀ j ∈ br.jobIds, ∃ jb, getA s.jobs j = some jb
  cancelledNoPending : ∀ bid br, getA s.batches bid = some br →
    br.status = JobStatus.cancelled → ∀ j ∈ br.jobIds, ∀ jb,
      getA s.jobs j = some jb → jb.status ≠ JobStatus.pending
  completedDone : ∀ bid br, getA s.batches bid = some br →
    br.status = JobStatus.completed → ∀ j ∈ br.jobIds, ∀ jb,
      getA s.jobs j = some jb →
      jb.status ≠ JobStatus.pending ∧ jb.status ≠ JobStatus.processing
  curBatch : ∀ bid j, s.current = some (some bid, j) →
    ∃ br, getA s.batches bid = some br ∧ j ∈ br.jobIds ∧
      (br.status = JobStatus.processing ∨ br.status = JobStatus.cancelled)

theorem sysInv_init : SysInv initSt := by
  constructor <;> intros <;> simp_all [initSt, getA]

theorem valid_ids_nodup {items : List (String × PathInfo)}
    (h : (items.map (·.1)).Nodup) :
    ((items.filter (fun it => validPdf it.2)).map (·.1)).Nodup :=
  h.sublist (List.Sublist.map _ (List.filter_sublist items))

/-- Invariant preservation for batch creation, stated over the already
filtered list of admitted (path, id) pairs. -/
theorem sysInv_create_aux (s : St) (bid : String)
    (valid : List (String × PathInfo))
    (hfresh : getA s.batches bid = none)
    (hvnodup : (valid.map (·.1)).Nodup)
    (hvfresh : ∀ it ∈ valid, getA s.jobs it.1 = none)
    (hs : SysInv s) :
    SysInv { s with
      jobs := s.jobs ++ valid.map (fun it => (it.1, mkPendingJob it.1 it.2))
      batches := s.batches ++
        [(bid, (⟨JobStatus.pending, valid.map (·.1)⟩ : BatchRec))]
      queue := s.queue ++ valid.map (fun it => (some bid, it.1)) } := by
  have hnew : ∀ it ∈ valid,
      getA (valid.map (fun it => (it.1, mkPendingJob it.1 it.2))) it.1 =
        some (mkPendingJob it.1 it.2) :=
    getA_map_pair (·.1) (fun it => mkPendingJob it.1 it.2) valid hvnodup
  have hjobs' : ∀ k v, getA s.jobs k = some v →
      getA (s.jobs ++ valid.map (fun it => (it.1, mkPendingJob it.1 it.2))) k
        = some v := fun _ _ h => getA_append_left _ h
  have hbat' : ∀ k v, getA s.batches k = some v →
      getA (s.batches ++
        [(bid, (⟨JobStatus.pending, valid.map (·.1)⟩ : BatchRec))]) k
        = some v := fun _ _ h => getA_append_left _ h
  have hbatbid : getA (s.batches ++
      [(bid, (⟨JobStatus.pending, valid.map (·.1)⟩ : BatchRec))]) bid =
      some ⟨JobStatus.pending, valid.map (·.1)⟩ := by
    rw [getA_append_right _ hfresh]; simp [getA]
  have hbatcases : ∀ k v, getA (s.batches ++
      [(bid, (⟨JobStatus.pending, valid.map (·.1)⟩ : BatchRec))]) k = some v →
      getA s.batches k = some v ∨
        (k = bid ∧ v = ⟨JobStatus.pending, valid.map (·.1)⟩) := by
    intro k v h
    cases ho : getA s.batches k with
    | some w =>
      rw [getA_append_left _ ho] at h
      exact Or.inl h
    | none =>
      rw [getA_append_right _ ho] at h
      simp only [getA] at h
      by_cases hk : k = bid
      · rw [if_pos hk] at h
        exact Or.inr ⟨hk, (Option.some.inj h).symm⟩
      · rw [if_neg hk] at h
        exact Option.noConfusion h
  have hjobcases : ∀ k v,
      getA (s.jobs ++ valid.map (fun it => (it.1, mkPendingJob it.1 it.2))) k
        = some v →
      getA s.jobs k = some v ∨ v.status = JobStatus.pending := by
    intro k v h
    cases ho : getA s.jobs k with
    | some w =>
      rw [getA_append_left _ ho] at h
      exact Or.inl h
    | none =>
      rw [getA_append_right _ ho] at h
      have hmem := getA_mem h
      simp only [List.mem_map] at hmem
      obtain ⟨it, -, heq⟩ := hmem
      injection heq with h1 h2
      exact Or.inr (h2 ▸ rfl)
  constructor
  case curProc =>
    intro b j h
    obtain ⟨jb, hjb, hst⟩ := hs.curProc b j h
    exact ⟨jb, hjobs' _ _ hjb, hst⟩
  case queueJobs =>
    intro b j h
    simp only [List.mem_append] at h
    rcases h with h | h
    · obtain ⟨jb, hjb, hst⟩ := hs.queueJobs b j h
      exact ⟨jb, hjobs' _ _ hjb, hst⟩
    · simp only [List.mem_map] at h
      obtain ⟨it, hit, heq⟩ := h
      injection heq with h1 h2
      subst h2
      refine ⟨mkPendingJob it.1 it.2, ?_, Or.inl rfl⟩
      rw [getA_append_right _ (hvfresh it hit)]
      exact hnew it hit
  case queueNodup =>
    simp only [List.map_append]
    rw [List.nodup_append]
    refine ⟨hs.queueNodup, by simpa using hvnodup, ?_⟩
    intro x hx hy
    simp only [List.map_map, List.mem_map, Function.comp] at hx hy
    obtain ⟨⟨b, j⟩, hbj, rfl⟩ := hx
    obtain ⟨it, hit, heq⟩ := hy
    obtain ⟨jb, hjb, -⟩ := hs.queueJobs b j hbj
    have hx2 : getA s.jobs it.1 = some jb := by rw [heq]; exact hjb
    rw [hvfresh it hit] at hx2
    exact Option.noConfusion hx2
  case curNotQueued =>
    intro b j b' j' hc hq
    simp only [List.mem_append] at hq
    rcases hq with hq | hq
    · exact hs.curNotQueued b j b' j' hc hq
    · simp only [List.mem_map] at hq
      obtain ⟨it, hit, heq⟩ := hq
      injection heq with h1 h2
      subst h2
      intro hcontr
      obtain ⟨jb, hjb, -⟩ := hs.curProc b j hc
      rw [← hcontr, hvfresh it hit] at hjb
      exact Option.noConfusion hjb
  case queueBatch =>
    intro bid' j h
    simp only [List.mem_append] at h
    rcases h with h | h
    · obtain ⟨br, hbr, hj⟩ := hs.queueBatch bid' j h
      exact ⟨br, hbat' _ _ hbr, hj⟩
    · simp only [List.mem_map] at h
      obtain ⟨it, hit, heq⟩ := h
      injection heq with h1 h2
      obtain rfl : bid = bid' := Option.some.inj h1
      subst h2
      exact ⟨_, hbatbid, List.mem_map_of_mem _ hit⟩
  case memExists =>
    intro bid' br h j hj
    rcases hbatcases bid' br h with h' | ⟨-, rfl⟩
    · obtain ⟨jb, hjb⟩ := hs.memExists bid' br h' j hj
      exact ⟨jb, hjobs' _ _ hjb⟩
    · simp only [List.mem_map] at hj
      obtain ⟨it, hit, rfl⟩ := hj
      refine ⟨mkPendingJob it.1 it.2, ?_⟩
      rw [getA_append_right _ (hvfresh it hit)]
      exact hnew it hit
  case cancelledNoPending =>
    intro bid' br h hstat j hj jb hjb
    rcases hbatcases bid' br h with h' | ⟨-, rfl⟩
    · obtain ⟨jb0, hjb0⟩ := hs.memExists bid' br h' j hj
      have h2 := hjobs' _ _ hjb0
      rw [h2] at hjb
      obtain rfl : jb0 = jb := Option.some.inj hjb
      exact hs.cancelledNoPending bid' br h' hstat j hj jb0 hjb0
    · exact absurd hstat (by simp)
  case completedDone =>
    intro bid' br h hstat j hj jb hjb
    rcases hbatcases bid' br h with h' | ⟨-, rfl⟩
    · obtain ⟨jb0, hjb0⟩ := hs.memExists bid' br h' j hj
      have h2 := hjobs' _ _ hjb0
      rw [h2] at hjb
      obtain rfl : jb0 = jb := Option.some.inj hjb
      exact hs.completedDone bid' br h' hstat j hj jb0 hjb0
    · exact absurd hstat (by simp)
  case curBatch =>
    intro bid' j h
    obtain ⟨br, hbr, hj, hstat⟩ := hs.curBatch bid' j h
    exact ⟨br, hbat' _ _ hbr, hj, hstat⟩

/-- Invariant preservation for `add_single_job` (success path). -/
theorem sysInv_single_aux (s : St) (jid : String) (p : PathInfo)
    (hfresh : getA s.jobs jid = none) (hs : SysInv s) :
    SysInv { s with
      jobs := s.jobs ++ [(jid, mkPendingJob jid p)]
      queue := s.queue ++ [(none, jid)] } := by
  have hjobs' : ∀ k v, getA s.jobs k = some v →
      getA (s.jobs ++ [(jid, mkPendingJob jid p)]) k = some v :=
    fun _ _ h => getA_append_left _ h
  have hjid : getA (s.jobs ++ [(jid, mkPendingJob jid p)]) jid =
      some (mkPendingJob jid p) := by
    rw [getA_append_right _ hfresh]; simp [getA]
  constructor
  case curProc =>
    intro b j h
    obtain ⟨jb, hjb, hst⟩ := hs.curProc b j h
    exact ⟨jb, hjobs' _ _ hjb, hst⟩
  case queueJobs =>
    intro b j h
    simp only [List.mem_append, List.mem_singleton] at h
    rcases h with h | h
    · obtain ⟨jb, hjb, hst⟩ := hs.queueJobs b j h
      exact ⟨jb, hjobs' _ _ hjb, hst⟩
    · injection h with h1 h2
      subst h2
      exact ⟨_, hjid, Or.inl rfl⟩
  case queueNodup =>
    simp only [List.map_append]
    rw [List.nodup_append]
    refine ⟨hs.queueNodup, List.nodup_singleton _, ?_⟩
    intro x hx hy
    simp only [List.mem_map] at hx
    simp only [List.map_cons, List.map_nil, List.mem_singleton] at hy
    obtain ⟨⟨b, j⟩, hbj, rfl⟩ := hx
    obtain ⟨jb, hjb, -⟩ := hs.queueJobs b j hbj
    have hx2 : getA s.jobs jid = some jb := by
      rw [← hy] at hfresh ⊢; exact hjb
    rw [hfresh] at hx2
    exact Option.noConfusion hx2
  case curNotQueued =>
    intro b j b' j' hc hq
    simp only [List.mem_append, List.mem_singleton] at hq
    rcases hq with hq | hq
    · exact hs.curNotQueued b j b' j' hc hq
    · injection hq with h1 h2
      subst h2
      intro hcontr
      obtain ⟨jb, hjb, -⟩ := hs.curProc b j hc
      rw [← hcontr, hfresh] at hjb
      exact Option.noConfusion hjb
  case queueBatch =>
    intro bid j h
    simp only [List.mem_append, List.mem_singleton] at h
    rcases h with h | h
    · exact hs.queueBatch bid j h
    · exact absurd h (by simp)
  case memExists =>
    intro bid br h j hj
    obtain ⟨jb, hjb⟩ := hs.memExists bid br h j hj
    exact ⟨jb, hjobs' _ _ hjb⟩
  case cancelledNoPending =>
    intro bid br h hstat j hj jb hjb
    obtain ⟨jb0, hjb0⟩ := hs.memExists bid br h j hj
    have h2 := hjobs' _ _ hjb0
    rw [h2] at hjb
    obtain rfl : jb0 = jb := Option.some.inj hjb
    exact hs.cancelledNoPending bid br h hstat j hj jb0 hjb0
  case completedDone =>
    intro bid br h hstat j hj jb hjb
    obtain ⟨jb0, hjb0⟩ := hs.memExists bid br h j hj
    have h2 := hjobs' _ _ hjb0
    rw [h2] at hjb
    obtain rfl : jb0 = jb := Option.some.inj hjb
    exact hs.completedDone bid br h hstat j hj jb0 hjb0
  case curBatch =>
    intro bid j h
    exact hs.curBatch bid j h

/-- Invariant preservation for `cancel_batch` on a registered batch. -/
theorem sysInv_cancel_aux (s : St) (bid : String) (br0 : BatchRec)
    (hbr : getA s.batches bid = some br0) (hs : SysInv s) :
    SysInv { s with
      jobs := mapVals (fun k jb =>
        if k ∈ br0.jobIds ∧ jb.status = JobStatus.pending then
          { jb with status := JobStatus.cancelled }
        else jb) s.jobs
      batches := setA s.batches bid
        (fun b => { b with status := JobStatus.cancelled }) } := by
  set g : String → PDFJob → PDFJob := fun k jb =>
    if k ∈ br0.jobIds ∧ jb.status = JobStatus.pending then
      { jb with status := JobStatus.cancelled }
    else jb with hg
  have hjobs' : ∀ k, getA (mapVals g s.jobs) k = (getA s.jobs k).map (g k) :=
    fun k => getA_mapVals g s.jobs k
  have hbat' : ∀ k, getA (setA s.batches bid
      (fun b => { b with status := JobStatus.cancelled })) k =
      if k = bid then (getA s.batches k).map
        (fun b => { b with status := JobStatus.cancelled })
      else getA s.batches k := by
    intro k
    by_cases hk : k = bid
    · subst hk; rw [getA_setA_self]; simp
    · rw [getA_setA_ne _ hk]; simp [hk]
  have hgstat : ∀ k jb, (g k jb).status = jb.status ∨
      (jb.status = JobStatus.pending ∧
        (g k jb).status = JobStatus.cancelled) := by
    intro k jb
    by_cases hc : k ∈ br0.jobIds ∧ jb.status = JobStatus.pending
    · exact Or.inr ⟨hc.2, by simp [hg, hc]⟩
    · exact Or.inl (by simp [hg, hc])
  constructor
  case curProc =>
    intro b j h
    obtain ⟨jb, hjb, hst⟩ := hs.curProc b j h
    refine ⟨g j jb, by rw [hjobs', hjb]; rfl, ?_⟩
    rcases hgstat j jb with h' | ⟨hp, -⟩
    · rw [h', hst]
    · rw [hst] at hp; exact absurd hp (by simp)
  case queueJobs =>
    intro b j h
    obtain ⟨jb, hjb, hst⟩ := hs.queueJobs b j h
    refine ⟨g j jb, by rw [hjobs', hjb]; rfl, ?_⟩
    rcases hgstat j jb with h' | ⟨-, hc⟩
    · rw [h']; exact hst
    · exact Or.inr hc
  case queueNodup => exact hs.queueNodup
  case curNotQueued => exact fun b j b' j' hc hq => hs.curNotQueued b j b' j' hc hq
  case queueBatch =>
    intro bid' j h
    obtain ⟨br, hbr', hj⟩ := hs.queueBatch bid' j h
    rw [show (setA s.batches bid
        (fun b => { b with status := JobStatus.cancelled })) =
        setA s.batches bid (fun b => { b with status := JobStatus.cancelled })
      from rfl]
    by_cases hk : bid' = bid
    · subst hk
      refine ⟨{ br with status := JobStatus.cancelled }, ?_, hj⟩
      rw [hbat']; simp [hbr']
    · exact ⟨br, by rw [hbat']; simp [hk, hbr'], hj⟩
  case memExists =>
    intro bid' br h j hj
    have hids : br.jobIds = br.jobIds := rfl
    by_cases hk : bid' = bid
    · subst hk
      rw [hbat'] at h
      simp only [if_pos rfl, hbr, Option.map_some'] at h
      obtain rfl : { br0 with status := JobStatus.cancelled } = br :=
        Option.some.inj h
      obtain ⟨jb, hjb⟩ := hs.memExists _ br0 hbr j hj
      exact ⟨g j jb, by rw [hjobs', hjb]; rfl⟩
    · rw [hbat', if_neg hk] at h
      obtain ⟨jb, hjb⟩ := hs.memExists bid' br h j hj
      exact ⟨g j jb, by rw [hjobs', hjb]; rfl⟩
  case cancelledNoPending =>
    intro bid' br h hstat j hj jb hjb
    by_cases hk : bid' = bid
    · subst hk
      rw [hbat'] at h
      simp only [if_pos rfl, hbr, Option.map_some'] at h
      obtain rfl : { br0 with status := JobStatus.cancelled } = br :=
        Option.some.inj h
      obtain ⟨jb0, hjb0⟩ := hs.memExists _ br0 hbr j hj
      rw [hjobs', hjb0] at hjb
      obtain rfl : g j jb0 = jb := Option.some.inj hjb
      by_cases hc : jb0.status = JobStatus.pending
      · have : j ∈ br0.jobIds := hj
        simp only [hg, if_pos (And.intro this hc)]
        simp
      · rcases hgstat j jb0 with h' | ⟨hp, -⟩
        · rw [h']; exact hc
        · exact absurd hp hc
    · rw [hbat', if_neg hk] at h
      obtain ⟨jb0, hjb0⟩ := hs.memExists bid' br h j hj
      rw [hjobs', hjb0] at hjb
      obtain rfl : g j jb0 = jb := Option.some.inj hjb
      have hold := hs.cancelledNoPending bid' br h hstat j hj jb0 hjb0
      rcases hgstat j jb0 with h' | ⟨-, hc⟩
      · rw [h']; exact hold
      · rw [hc]; simp
  case completedDone =>
    intro bid' br h hstat j hj jb hjb
    by_cases hk : bid' = bid
    · subst hk
      rw [hbat'] at h
      simp only [if_pos rfl, hbr, Option.map_some'] at h
      obtain rfl : { br0 with status := JobStatus.cancelled } = br :=
        Option.some.inj h
      exact absurd hstat (by simp)
    · rw [hbat', if_neg hk] at h
      obtain ⟨jb0, hjb0⟩ := hs.memExists bid' br h j hj
      rw [hjobs', hjb0] at hjb
      obtain rfl : g j jb0 = jb := Option.some.inj hjb
      have hold := hs.completedDone bid' br h hstat j hj jb0 hjb0
      rcases hgstat j jb0 with h' | ⟨hp, -⟩
      · rw [h']; exact hold
      · exact absurd hp hold.1
  case curBatch =>
    intro bid' j h
    obtain ⟨br, hbr', hj, hstat⟩ := hs.curBatch bid' j h
    by_cases hk : bid' = bid
    · subst hk
      refine ⟨{ br with status := JobStatus.cancelled }, ?_, hj, Or.inr rfl⟩
      rw [hbat']; simp [hbr']
    · exact ⟨br, by rw [hbat']; simp [hk, hbr'], hj, hstat⟩

/-! ### Worker step equations -/

theorem workerBegin_busy {s : St} {c : Option String × String}
    (h : s.current = some c) : workerBegin s = s := by
  unfold workerBegin; rw [h]

theorem workerBegin_idle_empty {s : St} (h1 : s.current = none)
    (h2 : s.queue = []) : workerBegin s = s := by
  unfold workerBegin; rw [h1, h2]

theorem workerBegin_skip_missing {s : St} {b : Option String} {j : String}
    {rest : List (Option String × String)} (h1 : s.current = none)
    (h2 : s.queue = (b, j) :: rest) (h3 : getA s.jobs j = none) :
    workerBegin s = { s with queue := rest } := by
  unfold workerBegin; rw [h1, h2]; dsimp only; rw [h3]

theorem workerBegin_skip_cancelled {s : St} {b : Option String} {j : String}
    {rest : List (Option String × String)} {jb : PDFJob}
    (h1 : s.current = none) (h2 : s.queue = (b, j) :: rest)
    (h3 : getA s.jobs j = some jb)
    (h4 : jb.status = JobStatus.cancelled) :
    workerBegin s = { s with queue := rest } := by
  unfold workerBegin; rw [h1, h2]; dsimp only; rw [h3]
  simp [h4]

theorem workerBegin_run {s : St} {b : Option String} {j : String}
    {rest : List (Option String × String)} {jb : PDFJob}
    (h1 : s.current = none) (h2 : s.queue = (b, j) :: rest)
    (h3 : getA s.jobs j = some jb)
    (h4 : jb.status ≠ JobStatus.cancelled) :
    workerBegin s = { s with
      queue := rest
      jobs := setA s.jobs j startJobUpdate
      batches := beginBatches s.batches b
      current := some (b, j) } := by
  unfold workerBegin; rw [h1, h2]; dsimp only; rw [h3]
  simp [h4]

theorem workerFinish_idle {s : St} {o : ExecOutcome}
    (h : s.current = none) : workerFinish s o = s := by
  unfold workerFinish; rw [h]

theorem workerFinish_run {s : St} {o : ExecOutcome} {b : Option String}
    {j : String} (h : s.current = some (b, j)) :
    workerFinish s o = { s with
      jobs := setA s.jobs j (finishJobUpdate o)
      batches := batchCompleteCheck s.batches
        (setA s.jobs j (finishJobUpdate o)) b
      current := none
      delays := s.delays + (if s.queue.isEmpty then 0 else 1) } := by
  unfold workerFinish; rw [h]

/-! ### Batch-update case analyses -/

theorem beginBatches_cases (bs : List (String × BatchRec)) (b : Option String)
    (k : String) :
    getA (beginBatches bs b) k = getA bs k ∨
      (b = some k ∧ ∃ br, getA bs k = some br ∧
        getA (beginBatches bs b) k =
          some { br with status := JobStatus.processing }) := by
  cases b with
  | none => exact Or.inl rfl
  | some bid =>
    by_cases hk : k = bid
    · subst hk
      cases ho : getA bs k with
      | none =>
        refine Or.inl ?_
        unfold beginBatches
        rw [getA_setA_self, ho]
        rfl
      | some br =>
        refine Or.inr ⟨rfl, br, rfl, ?_⟩
        unfold beginBatches
        rw [getA_setA_self, ho]
        rfl
    · refine Or.inl ?_
      unfold beginBatches
      exact getA_setA_ne _ (fun hc => hk hc)

theorem batchCompleteCheck_cases (bs : List (String × BatchRec))
    (js : List (String × PDFJob)) (b : Option String) (k : String) :
    getA (batchCompleteCheck bs js b) k = getA bs k ∨
      (b = some k ∧ ∃ br, getA bs k = some br ∧ allMembersDone js br = true ∧
        getA (batchCompleteCheck bs js b) k =
          some { br with status := JobStatus.completed }) := by
  cases b with
  | none => exact Or.inl rfl
  | some bid =>
    cases ho : getA bs bid with
    | none =>
      refine Or.inl ?_
      unfold batchCompleteCheck
      dsimp only
      rw [ho]
    | some br =>
      by_cases hall : allMembersDone js br = true
      · by_cases hk : k = bid
        · subst hk
          refine Or.inr ⟨rfl, br, ho, hall, ?_⟩
          unfold batchCompleteCheck
          dsimp only
          rw [ho]
          dsimp only
          rw [if_pos hall, getA_setA_self, ho]
          rfl
        · refine Or.inl ?_
          unfold batchCompleteCheck
          dsimp only
          rw [ho]
          dsimp only
          rw [if_pos hall]
          exact getA_setA_ne _ (fun hc => hk hc)
      · refine Or.inl ?_
        unfold batchCompleteCheck
        dsimp only
        rw [ho]
        dsimp only
        rw [if_neg hall]

theorem allMembersDone_spec {js : List (String × PDFJob)} {br : BatchRec}
    (h : allMembersDone js br = true) :
    ∀ j ∈ br.jobIds, ∃ jb, getA js j = some jb ∧
      isDoneStatus jb.status = true := by
  intro j hj
  unfold allMembersDone at h
  rw [List.all_eq_true] at h
  have := h j hj
  cases hg : getA js j with
  | none => rw [hg] at this; exact absurd this (by simp)
  | some jb => exact ⟨jb, rfl, by rw [hg] at this; exact this⟩

theorem isDoneStatus_spec {st : JobStatus} (h : isDoneStatus st = true) :
    st ≠ JobStatus.pending ∧ st ≠ JobStatus.processing := by
  cases st
  case pending => exact absurd h (by decide)
  case processing => exact absurd h (by decide)
  all_goals exact ⟨by decide, by decide⟩

theorem finishJobUpdate_status (o : ExecOutcome) (jb : PDFJob) :
    (finishJobUpdate o jb).status = JobStatus.completed ∨
      (finishJobUpdate o jb).status = JobStatus.failed := by
  cases o <;> simp [finishJobUpdate]

/-! ### Worker invariant preservation -/

theorem sysInv_drop_head {s : St} {e : Option String × String}
    {rest : List (Option String × String)} (hcur : s.current = none)
    (hq : s.queue = e :: rest) (hs : SysInv s) :
    SysInv { s with queue := rest } := by
  constructor
  case curProc => intro b j h; exact absurd (hcur ▸ h) (by simp)
  case queueJobs =>
    intro b j h
    exact hs.queueJobs b j (by rw [hq]; exact List.mem_cons_of_mem _ h)
  case queueNodup =>
    have := hs.queueNodup
    rw [hq] at this
    exact (List.nodup_cons.mp this).2
  case curNotQueued => intro b j b' j' h; exact absurd (hcur ▸ h) (by simp)
  case queueBatch =>
    intro bid j h
    exact hs.queueBatch bid j (by rw [hq]; exact List.mem_cons_of_mem _ h)
  case memExists => exact hs.memExists
  case cancelledNoPending => exact hs.cancelledNoPending
  case completedDone => exact hs.completedDone
  case curBatch => intro bid j h; exact absurd (hcur ▸ h) (by simp)

theorem sysInv_begin (s : St) (hs : SysInv s) : SysInv (workerBegin s) := by
  cases hcur : s.current with
  | some c => rw [workerBegin_busy hcur]; exact hs
  | none =>
    cases hq : s.queue with
    | nil => rw [workerBegin_idle_empty hcur hq]; exact hs
    | cons e rest =>
      obtain ⟨b, j⟩ := e
      obtain ⟨jb, hjb, hst⟩ := hs.queueJobs b j (by rw [hq]; exact List.mem_cons_self _ _)
      by_cases hcanc : jb.status = JobStatus.cancelled
      · rw [workerBegin_skip_cancelled hcur hq hjb hcanc]
        exact sysInv_drop_head hcur hq hs
      · have hpend : jb.status = JobStatus.pending := by
          rcases hst with h | h
          · exact h
          · exact absurd h hcanc
        rw [workerBegin_run hcur hq hjb hcanc]
        have hjnotrest : ∀ b' j', (b', j') ∈ rest → j' ≠ j := by
          intro b' j' hmem hcontr
          have hnd := hs.queueNodup
          rw [hq] at hnd
          rw [List.map_cons, List.nodup_cons] at hnd
          have hmm : j' ∈ rest.map (fun x => x.2) :=
            List.mem_map_of_mem _ hmem
          rw [hcontr] at hmm
          exact hnd.1 hmm
        have hjget : ∀ j', j' ≠ j →
            getA (setA s.jobs j startJobUpdate) j' = getA s.jobs j' :=
          fun j' hne => getA_setA_ne _ hne
        have hjgetj : getA (setA s.jobs j startJobUpdate) j =
            some (startJobUpdate jb) := by
          rw [getA_setA_self, hjb]; rfl
        refine ⟨?_, ?_, ?_, ?_, ?_, ?_, ?_, ?_, ?_⟩
        ·
          intro b0 j0 h
          injection h with h1
          injection h1 with hb0 hj0
          subst hb0; subst hj0
          exact ⟨startJobUpdate jb, hjgetj, rfl⟩
        ·
          intro b' j' h
          have hne := hjnotrest b' j' h
          obtain ⟨jb', hjb', hst'⟩ := hs.queueJobs b' j'
            (by rw [hq]; exact List.mem_cons_of_mem _ h)
          exact ⟨jb', by rw [hjget j' hne]; exact hjb', hst'⟩
        ·
          have hnd := hs.queueNodup
          rw [hq] at hnd
          rw [List.map_cons, List.nodup_cons] at hnd
          exact hnd.2
        ·
          intro b0 j0 b' j' hc hmem
          injection hc with h1
          injection h1 with hb0 hj0
          subst hj0
          exact hjnotrest b' j' hmem
        ·
          intro bid' j' h
          obtain ⟨br, hbr, hjmem⟩ := hs.queueBatch bid' j'
            (by rw [hq]; exact List.mem_cons_of_mem _ h)
          rcases beginBatches_cases s.batches b bid' with hsame | ⟨-, br2, hbr2, hnew⟩
          · exact ⟨br, by rw [hsame]; exact hbr, hjmem⟩
          · rw [hbr2] at hbr
            obtain rfl : br2 = br := Option.some.inj hbr
            exact ⟨_, hnew, hjmem⟩
        ·
          intro bid' br' hnew j' hj'
          have hold : ∃ br, getA s.batches bid' = some br ∧
              br.jobIds = br'.jobIds := by
            rcases beginBatches_cases s.batches b bid' with hsame | ⟨-, br2, hbr2, hnew2⟩
            · exact ⟨br', by rw [← hsame]; exact hnew, rfl⟩
            · rw [hnew2] at hnew
              obtain rfl : { br2 with status := JobStatus.processing } = br' :=
                Option.some.inj hnew
              exact ⟨br2, hbr2, rfl⟩
          obtain ⟨br, hbr, hids⟩ := hold
          obtain ⟨jb', hjb'⟩ := hs.memExists bid' br hbr j' (hids ▸ hj')
          by_cases hne : j' = j
          · subst hne; exact ⟨startJobUpdate jb, hjgetj⟩
          · exact ⟨jb', by rw [hjget j' hne]; exact hjb'⟩
        ·
          intro bid' br' hnew hstat j' hj' jb' hjb'
          rcases beginBatches_cases s.batches b bid' with hsame | ⟨-, br2, hbr2, hnew2⟩
          · rw [hsame] at hnew
            by_cases hne : j' = j
            · subst hne
              rw [hjgetj] at hjb'
              obtain rfl : startJobUpdate jb = jb' := Option.some.inj hjb'
              simp [startJobUpdate]
            · rw [hjget j' hne] at hjb'
              exact hs.cancelledNoPending bid' br' hnew hstat j' hj' jb' hjb'
          · rw [hnew2] at hnew
            obtain rfl : { br2 with status := JobStatus.processing } = br' :=
              Option.some.inj hnew
            exact absurd hstat (by simp)
        ·
          intro bid' br' hnew hstat j' hj' jb' hjb'
          rcases beginBatches_cases s.batches b bid' with hsame | ⟨-, br2, hbr2, hnew2⟩
          · rw [hsame] at hnew
            by_cases hne : j' = j
            · exact absurd hpend
                (hs.completedDone bid' br' hnew hstat j (hne ▸ hj') jb hjb).1
            · rw [hjget j' hne] at hjb'
              exact hs.completedDone bid' br' hnew hstat j' hj' jb' hjb'
          · rw [hnew2] at hnew
            obtain rfl : { br2 with status := JobStatus.processing } = br' :=
              Option.some.inj hnew
            exact absurd hstat (by simp)
        ·
          intro bid' j0 h
          injection h with h1
          injection h1 with hb0 hj0
          subst hj0
          obtain ⟨br, hbr, hjmem⟩ := hs.queueBatch bid' j
            (by rw [hq, hb0]; exact List.mem_cons_self _ _)
          rcases beginBatches_cases s.batches b bid' with hsame | ⟨-, br2, hbr2, hnew⟩
          · have hbst : ({ br with status := JobStatus.processing } : BatchRec) = br := by
              have h2 := hsame
              rw [hb0] at h2
              unfold beginBatches at h2
              rw [getA_setA_self, hbr] at h2
              simpa using h2
            refine ⟨br, ?_, hjmem, Or.inl ?_⟩
            · rw [hsame]; exact hbr
            · have h3 := congrArg BatchRec.status hbst
              simpa using h3.symm
          · rw [hbr2] at hbr
            obtain rfl : br2 = br := Option.some.inj hbr
            exact ⟨_, hnew, hjmem, Or.inl rfl⟩

theorem sysInv_finish (s : St) (o : ExecOutcome) (hs : SysInv s) :
    SysInv (workerFinish s o) := by
  cases hcur : s.current with
  | none => rw [workerFinish_idle hcur]; exact hs
  | some c =>
    obtain ⟨b, j⟩ := c
    obtain ⟨jb, hjb, hproc⟩ := hs.curProc b j hcur
    rw [workerFinish_run hcur]
    have hjgetj : getA (setA s.jobs j (finishJobUpdate o)) j =
        some (finishJobUpdate o jb) := by
      rw [getA_setA_self, hjb]; rfl
    have hjget : ∀ j', j' ≠ j →
        getA (setA s.jobs j (finishJobUpdate o)) j' = getA s.jobs j' :=
      fun j' hne => getA_setA_ne _ hne
    have hterm := finishJobUpdate_status o jb
    refine ⟨?_, ?_, ?_, ?_, ?_, ?_, ?_, ?_, ?_⟩
    · intro b0 j0 h
      exact absurd h (by simp)
    · intro b' j' h
      have hne : j' ≠ j := hs.curNotQueued b j b' j' hcur h
      obtain ⟨jb', hjb', hst'⟩ := hs.queueJobs b' j' h
      exact ⟨jb', by rw [hjget j' hne]; exact hjb', hst'⟩
    · exact hs.queueNodup
    · intro b0 j0 b' j' h
      exact absurd h (by simp)
    · intro bid' j' h
      obtain ⟨br, hbr, hjmem⟩ := hs.queueBatch bid' j' h
      rcases batchCompleteCheck_cases s.batches
          (setA s.jobs j (finishJobUpdate o)) b bid' with hsame | ⟨-, br2, hbr2, -, hnew⟩
      · exact ⟨br, by rw [hsame]; exact hbr, hjmem⟩
      · rw [hbr2] at hbr
        obtain rfl : br2 = br := Option.some.inj hbr
        exact ⟨_, hnew, hjmem⟩
    · intro bid' br' hnew j' hj'
      have hold : ∃ br, getA s.batches bid' = some br ∧
          br.jobIds = br'.jobIds := by
        rcases batchCompleteCheck_cases s.batches
            (setA s.jobs j (finishJobUpdate o)) b bid' with hsame | ⟨-, br2, hbr2, -, hnew2⟩
        · exact ⟨br', by rw [← hsame]; exact hnew, rfl⟩
        · rw [hnew2] at hnew
          obtain rfl : { br2 with status := JobStatus.completed } = br' :=
            Option.some.inj hnew
          exact ⟨br2, hbr2, rfl⟩
      obtain ⟨br, hbr, hids⟩ := hold
      obtain ⟨jb', hjb'⟩ := hs.memExists bid' br hbr j' (hids ▸ hj')
      by_cases hne : j' = j
      · subst hne; exact ⟨finishJobUpdate o jb, hjgetj⟩
      · exact ⟨jb', by rw [hjget j' hne]; exact hjb'⟩
    · intro bid' br' hnew hstat j' hj' jb' hjb'
      rcases batchCompleteCheck_cases s.batches
          (setA s.jobs j (finishJobUpdate o)) b bid' with hsame | ⟨-, br2, hbr2, -, hnew2⟩
      · rw [hsame] at hnew
        by_cases hne : j' = j
        · subst hne
          rw [hjgetj] at hjb'
          obtain rfl : finishJobUpdate o jb = jb' := Option.some.inj hjb'
          rcases hterm with h' | h' <;> simp [h']
        · rw [hjget j' hne] at hjb'
          exact hs.cancelledNoPending bid' br' hnew hstat j' hj' jb' hjb'
      · rw [hnew2] at hnew
        obtain rfl : { br2 with status := JobStatus.completed } = br' :=
          Option.some.inj hnew
        exact absurd hstat (by simp)
    · intro bid' br' hnew hstat j' hj' jb' hjb'
      rcases batchCompleteCheck_cases s.batches
          (setA s.jobs j (finishJobUpdate o)) b bid' with hsame | ⟨-, br2, hbr2, hall, hnew2⟩
      · rw [hsame] at hnew
        by_cases hne : j' = j
        · exact absurd hproc
            (hs.completedDone bid' br' hnew hstat j (hne ▸ hj') jb hjb).2
        · rw [hjget j' hne] at hjb'
          exact hs.completedDone bid' br' hnew hstat j' hj' jb' hjb'
      · rw [hnew2] at hnew
        obtain rfl : { br2 with status := JobStatus.completed } = br' :=
          Option.some.inj hnew
        obtain ⟨jb'', hjb'', hdone⟩ := allMembersDone_spec hall j' hj'
        rw [hjb''] at hjb'
        obtain rfl : jb'' = jb' := Option.some.inj hjb'
        exact isDoneStatus_spec hdone
    · intro bid' j0 h
      exact absurd h (by simp)

/-- Every fired action preserves the invariant. -/
theorem sysInv_applyEv {s : St} {e : Ev} (hs : SysInv s) (hok : EvOK s e) :
    SysInv (applyEv s e) := by
  cases e with
  | createB bid items =>
    exact sysInv_create_aux s bid (items.filter (fun it => validPdf it.2))
      hok.1 (valid_ids_nodup hok.2.1)
      (fun it hit => hok.2.2 it (List.mem_of_mem_filter hit)) hs
  | singleJ jid p =>
    show SysInv (match add_single_job s jid p with
      | Except.ok (s', _) => s'
      | Except.error _ => s)
    unfold add_single_job
    by_cases h1 : p.present = false
    · rw [if_pos h1]; exact hs
    · rw [if_neg h1]
      by_cases h2 : lowerStr p.suffix ≠ ".pdf"
      · rw [if_pos h2]; exact hs
      · rw [if_neg h2]
        exact sysInv_single_aux s jid p hok hs
  | cancelB bid =>
    show SysInv (cancel_batch s bid).2
    unfold cancel_batch
    cases hbr : getA s.batches bid with
    | none => exact hs
    | some br0 => exact sysInv_cancel_aux s bid br0 hbr hs
  | wbegin => exact sysInv_begin s hs
  | wfinish o => exact sysInv_finish s o hs

/-- Every reachable state satisfies the invariant. -/
theorem reachable_sysInv {s : St} (h : Reachable s) : SysInv s := by
  induction h with
  | start => exact sysInv_init
  | step _ hok ih => exact sysInv_applyEv ih hok

/-! ## The job and batch state machines -/

/-- The edges of the job state machine: Pending→Processing (worker
dequeue), Processing→Completed (success), Processing→Failed (failure),
Pending→Cancelled (external cancel). -/
def jobEdge : JobStatus → JobStatus → Prop
  | JobStatus.pending, JobStatus.processing => True
  | JobStatus.processing, JobStatus.completed => True
  | JobStatus.processing, JobStatus.failed => True
  | JobStatus.pending, JobStatus.cancelled => True
  | _, _ => False

/-- Terminal job statuses. -/
def isTerminal (st : JobStatus) : Prop :=
  st = JobStatus.completed ∨ st = JobStatus.failed ∨ st = JobStatus.cancelled

/-- One observation step of a job id: it may be absent before and
after, appear as Pending (creation), or change status only along a
`jobEdge`; it is never deleted. -/
def jobStepOK : Option PDFJob → Option PDFJob → Prop
  | none, none => True
  | none, some jb => jb.status = JobStatus.pending
  | some _, none => False
  | some a, some b => a.status = b.status ∨ jobEdge a.status b.status

theorem jobEdge_not_terminal {a b : JobStatus} (h : jobEdge a b) :
    ¬ isTerminal a := by
  cases a <;> cases b <;> simp_all [jobEdge, isTerminal]

theorem jobStepOK_refl (x : Option PDFJob) : jobStepOK x x := by
  cases x with
  | none => trivial
  | some a => exact Or.inl rfl

theorem getA_append_cases {α : Type} (l1 l2 : List (String × α))
    (k : String) :
    getA (l1 ++ l2) k = getA l1 k ∨
      (getA l1 k = none ∧ getA (l1 ++ l2) k = getA l2 k) := by
  cases h : getA l1 k with
  | none => exact Or.inr ⟨rfl, getA_append_right _ h⟩
  | some v => exact Or.inl (getA_append_left _ h)

theorem getA_newJobs_pending {items : List (String × PathInfo)} {k : String}
    {v : PDFJob}
    (h : getA (items.map (fun it => (it.1, mkPendingJob it.1 it.2))) k
      = some v) : v.status = JobStatus.pending := by
  have hmem := getA_mem h
  simp only [List.mem_map] at hmem
  obtain ⟨it, -, heq⟩ := hmem
  injection heq with h1 h2
  rw [← h2]; rfl

/-- C1.  For every job, every status transition applied by the system
follows an edge of the job state machine — Pending→Processing on worker
dequeue, Processing→Completed on success, Processing→Failed on failure,
Pending→Cancelled on external cancel; in particular there is no edge
from Processing to Cancelled (`jobEdge` has none), and once a job is
terminal (Completed, Failed, Cancelled) no step ever changes its
status again. -/
theorem job_status_transitions_valid (s : St) (hreach : Reachable s)
    (e : Ev) (hok : EvOK s e) (j : String) :
    jobStepOK (getA s.jobs j) (getA (applyEv s e).jobs j) ∧
    (∀ a b, getA s.jobs j = some a → getA (applyEv s e).jobs j = some b →
      isTerminal a.status → b.status = a.status) := by
  have hs := reachable_sysInv hreach
  have hmain : jobStepOK (getA s.jobs j) (getA (applyEv s e).jobs j) := by
    cases e with
    | createB bid items =>
      show jobStepOK (getA s.jobs j) (getA (s.jobs ++
        (items.filter (fun it => validPdf it.2)).map
          (fun it => (it.1, mkPendingJob it.1 it.2))) j)
      rcases getA_append_cases s.jobs ((items.filter (fun it => validPdf it.2)).map
          (fun it => (it.1, mkPendingJob it.1 it.2))) j with hsame | ⟨hnone, htail⟩
      · rw [hsame]; exact jobStepOK_refl _
      · rw [hnone, htail]
        cases hnew : getA ((items.filter (fun it => validPdf it.2)).map
            (fun it => (it.1, mkPendingJob it.1 it.2))) j with
        | none => trivial
        | some v => exact getA_newJobs_pending hnew
    | singleJ jid p =>
      show jobStepOK (getA s.jobs j) (getA (match add_single_job s jid p with
        | Except.ok (s', _) => s'
        | Except.error _ => s).jobs j)
      unfold add_single_job
      by_cases h1 : p.present = false
      · rw [if_pos h1]; exact jobStepOK_refl _
      · rw [if_neg h1]
        by_cases h2 : lowerStr p.suffix ≠ ".pdf"
        · rw [if_pos h2]; exact jobStepOK_refl _
        · rw [if_neg h2]
          show jobStepOK (getA s.jobs j)
            (getA (s.jobs ++ [(jid, mkPendingJob jid p)]) j)
          rcases getA_append_cases s.jobs [(jid, mkPendingJob jid p)] j with
            hsame | ⟨hnone, htail⟩
          · rw [hsame]; exact jobStepOK_refl _
          · rw [hnone, htail]
            cases hnew : getA [(jid, mkPendingJob jid p)] j with
            | none => trivial
            | some v =>
              have hmem := getA_mem hnew
              simp only [List.mem_singleton] at hmem
              injection hmem with h3 h4
              show v.status = JobStatus.pending
              rw [h4]; rfl
    | cancelB bid =>
      show jobStepOK (getA s.jobs j) (getA (cancel_batch s bid).2.jobs j)
      unfold cancel_batch
      cases hbr : getA s.batches bid with
      | none => exact jobStepOK_refl _
      | some br0 =>
        dsimp only
        rw [getA_mapVals]
        cases ho : getA s.jobs j with
        | none => trivial
        | some a =>
          by_cases hc : j ∈ br0.jobIds ∧ a.status = JobStatus.pending
          · refine Or.inr ?_
            simp only [Option.map_some', if_pos hc]
            rw [hc.2]
            trivial
          · simp only [Option.map_some', if_neg hc]
            exact Or.inl rfl
    | wbegin =>
      show jobStepOK (getA s.jobs j) (getA (workerBegin s).jobs j)
      cases hcur : s.current with
      | some c => rw [workerBegin_busy hcur]; exact jobStepOK_refl _
      | none =>
        cases hq : s.queue with
        | nil => rw [workerBegin_idle_empty hcur hq]; exact jobStepOK_refl _
        | cons e0 rest =>
          obtain ⟨b, jq⟩ := e0
          obtain ⟨jb, hjb, hst⟩ := hs.queueJobs b jq
            (by rw [hq]; exact List.mem_cons_self _ _)
          by_cases hcanc : jb.status = JobStatus.cancelled
          · rw [workerBegin_skip_cancelled hcur hq hjb hcanc]
            exact jobStepOK_refl _
          · have hpend : jb.status = JobStatus.pending := by
              rcases hst with h | h
              · exact h
              · exact absurd h hcanc
            rw [workerBegin_run hcur hq hjb hcanc]
            show jobStepOK (getA s.jobs j)
              (getA (setA s.jobs jq startJobUpdate) j)
            by_cases hne : j = jq
            · subst hne
              rw [getA_setA_self, hjb]
              exact Or.inr (by rw [hpend]; trivial)
            · rw [getA_setA_ne _ hne]
              exact jobStepOK_refl _
    | wfinish o =>
      show jobStepOK (getA s.jobs j) (getA (workerFinish s o).jobs j)
      cases hcur : s.current with
      | none => rw [workerFinish_idle hcur]; exact jobStepOK_refl _
      | some c =>
        obtain ⟨b, jq⟩ := c
        obtain ⟨jb, hjb, hproc⟩ := hs.curProc b jq hcur
        rw [workerFinish_run hcur]
        show jobStepOK (getA s.jobs j)
          (getA (setA s.jobs jq (finishJobUpdate o)) j)
        by_cases hne : j = jq
        · subst hne
          rw [getA_setA_self, hjb]
          refine Or.inr ?_
          show jobEdge jb.status (finishJobUpdate o jb).status
          rcases finishJobUpdate_status o jb with h' | h'
          · rw [h', hproc]; trivial
          · rw [h', hproc]; trivial
        · rw [getA_setA_ne _ hne]
          exact jobStepOK_refl _
  refine ⟨hmain, ?_⟩
  intro a b ha hb hterm
  rw [ha, hb] at hmain
  rcases hmain with h | h
  · exact h.symm
  · exact absurd hterm (jobEdge_not_terminal h)

/-- The batch statuses actually assigned by the system: a batch is
never Failed. -/
def NoFailedBatch (s : St) : Prop :=
  ∀ bid br, getA s.batches bid = some br → br.status ≠ JobStatus.failed

theorem noFailedBatch_reachable {s : St} (h : Reachable s) :
    NoFailedBatch s := by
  induction h with
  | start => intro bid br h'; simp [initSt, getA] at h'
  | step hr hok ih =>
    rename_i s0 e
    intro bid br h'
    cases e with
    | createB bid0 items =>
      rcases getA_append_cases s0.batches
          [(bid0, (⟨JobStatus.pending,
            ((items.filter (fun it => validPdf it.2)).map (·.1))⟩ : BatchRec))]
          bid with hsame | ⟨-, htail⟩
      · rw [show (applyEv s0 (Ev.createB bid0 items)).batches = s0.batches ++
            [(bid0, (⟨JobStatus.pending,
              ((items.filter (fun it => validPdf it.2)).map (·.1))⟩ : BatchRec))]
            from rfl, hsame] at h'
        exact ih bid br h'
      · rw [show (applyEv s0 (Ev.createB bid0 items)).batches = s0.batches ++
            [(bid0, (⟨JobStatus.pending,
              ((items.filter (fun it => validPdf it.2)).map (·.1))⟩ : BatchRec))]
            from rfl, htail] at h'
        have hmem := getA_mem h'
        simp only [List.mem_singleton] at hmem
        injection hmem with h1 h2
        rw [h2]; simp
    | singleJ jid p =>
      have : (applyEv s0 (Ev.singleJ jid p)).batches = s0.batches := by
        show (match add_single_job s0 jid p with
          | Except.ok (s', _) => s'
          | Except.error _ => s0).batches = s0.batches
        unfold add_single_job
        by_cases h1 : p.present = false
        · rw [if_pos h1]
        · rw [if_neg h1]
          by_cases h2 : lowerStr p.suffix ≠ ".pdf"
          · rw [if_pos h2]
          · rw [if_neg h2]
      rw [this] at h'
      exact ih bid br h'
    | cancelB bid0 =>
      show br.status ≠ JobStatus.failed
      have h'' := h'
      show br.status ≠ JobStatus.failed
      revert h''
      show getA (applyEv s0 (Ev.cancelB bid0)).batches bid = some br →
        br.status ≠ JobStatus.failed
      show getA (cancel_batch s0 bid0).2.batches bid = some br →
        br.status ≠ JobStatus.failed
      unfold cancel_batch
      cases hbr : getA s0.batches bid0 with
      | none => exact fun h'' => ih bid br h''
      | some br0 =>
        dsimp only
        intro h''
        by_cases hk : bid = bid0
        · subst hk
          rw [getA_setA_self] at h''
          cases ho : getA s0.batches bid with
          | none => rw [ho] at h''; exact absurd h'' (by simp)
          | some brx =>
            rw [ho] at h''
            have : ({ brx with status := JobStatus.cancelled } : BatchRec)
                = br := Option.some.inj h''
            rw [← this]; simp
        · rw [getA_setA_ne _ hk] at h''
          exact ih bid br h''
    | wbegin =>
      show br.status ≠ JobStatus.failed
      have h2 : getA (workerBegin s0).batches bid = some br := h'
      cases hcur : s0.current with
      | some c =>
        rw [workerBegin_busy hcur] at h2
        exact ih bid br h2
      | none =>
        cases hq : s0.queue with
        | nil =>
          rw [workerBegin_idle_empty hcur hq] at h2
          exact ih bid br h2
        | cons e0 rest =>
          obtain ⟨b, jq⟩ := e0
          cases hjb : getA s0.jobs jq with
          | none =>
            rw [workerBegin_skip_missing hcur hq hjb] at h2
            exact ih bid br h2
          | some jb =>
            by_cases hcanc : jb.status = JobStatus.cancelled
            · rw [workerBegin_skip_cancelled hcur hq hjb hcanc] at h2
              exact ih bid br h2
            · rw [workerBegin_run hcur hq hjb hcanc] at h2
              rcases beginBatches_cases s0.batches b bid with hsame | ⟨-, br2, hbr2, hnew⟩
              · rw [show ({ s0 with
                    queue := rest
                    jobs := setA s0.jobs jq startJobUpdate
                    batches := beginBatches s0.batches b
                    current := some (b, jq) } : St).batches =
                    beginBatches s0.batches b from rfl, hsame] at h2
                exact ih bid br h2
              · rw [show ({ s0 with
                    queue := rest
                    jobs := setA s0.jobs jq startJobUpdate
                    batches := beginBatches s0.batches b
                    current := some (b, jq) } : St).batches =
                    beginBatches s0.batches b from rfl, hnew] at h2
                have := Option.some.inj h2
                rw [← this]; simp
    | wfinish o =>
      show br.status ≠ JobStatus.failed
      have h2 : getA (workerFinish s0 o).batches bid = some br := h'
      cases hcur : s0.current with
      | none =>
        rw [workerFinish_idle hcur] at h2
        exact ih bid br h2
      | some c =>
        obtain ⟨b, jq⟩ := c
        rw [workerFinish_run hcur] at h2
        rcases batchCompleteCheck_cases s0.batches
            (setA s0.jobs jq (finishJobUpdate o)) b bid with hsame | ⟨-, br2, hbr2, -, hnew⟩
        · rw [show ({ s0 with
              jobs := setA s0.jobs jq (finishJobUpdate o)
              batches := batchCompleteCheck s0.batches
                (setA s0.jobs jq (finishJobUpdate o)) b
              current := none
              delays := s0.delays + (if s0.queue.isEmpty then 0 else 1) } : St).batches =
              batchCompleteCheck s0.batches
                (setA s0.jobs jq (finishJobUpdate o)) b from rfl, hsame] at h2
          exact ih bid br h2
        · rw [show ({ s0 with
              jobs := setA s0.jobs jq (finishJobUpdate o)
              batches := batchCompleteCheck s0.batches
                (setA s0.jobs jq (finishJobUpdate o)) b
              current := none
              delays := s0.delays + (if s0.queue.isEmpty then 0 else 1) } : St).batches =
              batchCompleteCheck s0.batches
                (setA s0.jobs jq (finishJobUpdate o)) b from rfl, hnew] at h2
          have := Option.some.inj h2
          rw [← this]; simp

/-- The batch-status edges the code actually takes:
Pending→Processing (first member job starts), Processing→Completed
(all member jobs terminal), Pending/Processing→Cancelled (explicit
cancel) — plus two edges absent from the spec's batch state machine:
Completed→Cancelled (`cancel_batch` does not check the current status)
and Cancelled→Completed (the all-terminal check fires after a cancel
while a member job was in flight).  There is no Cancelled→Processing
edge. -/
def batchEdge : JobStatus → JobStatus → Prop
  | JobStatus.pending, JobStatus.processing => True
  | JobStatus.processing, JobStatus.completed => True
  | JobStatus.pending, JobStatus.cancelled => True
  | JobStatus.processing, JobStatus.cancelled => True
  | JobStatus.completed, JobStatus.cancelled => True
  | JobStatus.cancelled, JobStatus.completed => True
  | _, _ => False

/-- One observation step of a batch id: absent before and after, newly
registered as Pending, or status changed only along a `batchEdge`;
never deleted. -/
def batchStepOK : Option BatchRec → Option BatchRec → Prop
  | none, none => True
  | none, some br => br.status = JobStatus.pending
  | some _, none => False
  | some a, some b => a.status = b.status ∨ batchEdge a.status b.status

theorem batchStepOK_refl (x : Option BatchRec) : batchStepOK x x := by
  cases x with
  | none => trivial
  | some a => exact Or.inl rfl

theorem batchStepOK_of_eq {x y : Option BatchRec} (h : y = x) :
    batchStepOK x y := by
  rw [h]; exact batchStepOK_refl x

theorem batchEdge_cancelled_not_processing {b : JobStatus}
    (h : batchEdge JobStatus.cancelled b) : b ≠ JobStatus.processing := by
  cases b <;> simp_all [batchEdge]

/-- C2 (amended).  Every batch status transition applied by the system
follows a `batchEdge` (or leaves the status unchanged): the spec's
edges Pending→Processing, Processing→Completed and
Pending/Processing→Cancelled, plus Completed→Cancelled and
Cancelled→Completed, which the code also takes; in particular a
Cancelled batch never transitions to Processing. -/
theorem batch_status_transitions (s : St) (hreach : Reachable s)
    (e : Ev) (hok : EvOK s e) (bid : String) :
    batchStepOK (getA s.batches bid) (getA (applyEv s e).batches bid) ∧
    (∀ a b, getA s.batches bid = some a →
      getA (applyEv s e).batches bid = some b →
      a.status = JobStatus.cancelled → b.status ≠ JobStatus.processing) := by
  have hs := reachable_sysInv hreach
  have hnf := noFailedBatch_reachable hreach
  have hmain : batchStepOK (getA s.batches bid)
      (getA (applyEv s e).batches bid) := by
    cases e with
    | createB bid0 items =>
      show batchStepOK (getA s.batches bid) (getA (s.batches ++
        [(bid0, (⟨JobStatus.pending,
          ((items.filter (fun it => validPdf it.2)).map (·.1))⟩ : BatchRec))]) bid)
      rcases getA_append_cases s.batches
          [(bid0, (⟨JobStatus.pending,
            ((items.filter (fun it => validPdf it.2)).map (·.1))⟩ : BatchRec))]
          bid with hsame | ⟨hnone, htail⟩
      · rw [hsame]; exact batchStepOK_refl _
      · rw [hnone, htail]
        cases hnew : getA [(bid0, (⟨JobStatus.pending,
            ((items.filter (fun it => validPdf it.2)).map (·.1))⟩ : BatchRec))] bid with
        | none => trivial
        | some v =>
          have hmem := getA_mem hnew
          simp only [List.mem_singleton] at hmem
          injection hmem with h1 h2
          show v.status = JobStatus.pending
          rw [h2]
    | singleJ jid p =>
      have hbeq : (applyEv s (Ev.singleJ jid p)).batches = s.batches := by
        show (match add_single_job s jid p with
          | Except.ok (s', _) => s'
          | Except.error _ => s).batches = s.batches
        unfold add_single_job
        by_cases h1 : p.present = false
        · rw [if_pos h1]
        · rw [if_neg h1]
          by_cases h2 : lowerStr p.suffix ≠ ".pdf"
          · rw [if_pos h2]
          · rw [if_neg h2]
      rw [hbeq]
      exact batchStepOK_refl _
    | cancelB bid0 =>
      show batchStepOK (getA s.batches bid)
        (getA (cancel_batch s bid0).2.batches bid)
      unfold cancel_batch
      cases hbr : getA s.batches bid0 with
      | none => exact batchStepOK_refl _
      | some br0 =>
        dsimp only
        by_cases hk : bid = bid0
        · subst hk
          rw [getA_setA_self]
          cases ho : getA s.batches bid with
          | none => trivial
          | some a =>
            show a.status = JobStatus.cancelled ∨
              batchEdge a.status JobStatus.cancelled
            have hnfa := hnf bid a ho
            cases hst : a.status with
            | pending => exact Or.inr trivial
            | processing => exact Or.inr trivial
            | completed => exact Or.inr trivial
            | failed => exact absurd hst hnfa
            | cancelled => exact Or.inl rfl
        · rw [getA_setA_ne _ hk]
          exact batchStepOK_refl _
    | wbegin =>
      show batchStepOK (getA s.batches bid) (getA (workerBegin s).batches bid)
      cases hcur : s.current with
      | some c => rw [workerBegin_busy hcur]; exact batchStepOK_refl _
      | none =>
        cases hq : s.queue with
        | nil => rw [workerBegin_idle_empty hcur hq]; exact batchStepOK_refl _
        | cons e0 rest =>
          obtain ⟨b, jq⟩ := e0
          obtain ⟨jb, hjb, hst⟩ := hs.queueJobs b jq
            (by rw [hq]; exact List.mem_cons_self _ _)
          by_cases hcanc : jb.status = JobStatus.cancelled
          · rw [workerBegin_skip_cancelled hcur hq hjb hcanc]
            exact batchStepOK_refl _
          · have hpend : jb.status = JobStatus.pending := by
              rcases hst with h | h
              · exact h
              · exact absurd h hcanc
            rw [workerBegin_run hcur hq hjb hcanc]
            show batchStepOK (getA s.batches bid)
              (getA (beginBatches s.batches b) bid)
            rcases beginBatches_cases s.batches b bid with hsame | ⟨hb, br2, hbr2, hnew⟩
            · rw [hsame]; exact batchStepOK_refl _
            · rw [hbr2, hnew]
              show br2.status = JobStatus.processing ∨
                batchEdge br2.status JobStatus.processing
              obtain ⟨br3, hbr3, hjmem⟩ := hs.queueBatch bid jq
                (by rw [hq, hb]; exact List.mem_cons_self _ _)
              rw [hbr2] at hbr3
              obtain rfl : br2 = br3 := Option.some.inj hbr3
              have hnc : br2.status ≠ JobStatus.cancelled := fun hc =>
                hs.cancelledNoPending bid br2 hbr2 hc jq hjmem jb hjb hpend
              have hnd : br2.status ≠ JobStatus.completed := fun hc =>
                (hs.completedDone bid br2 hbr2 hc jq hjmem jb hjb).1 hpend
              have hnfb := hnf bid br2 hbr2
              cases hst2 : br2.status with
              | pending => exact Or.inr trivial
              | processing => exact Or.inl rfl
              | completed => exact absurd hst2 hnd
              | failed => exact absurd hst2 hnfb
              | cancelled => exact absurd hst2 hnc
    | wfinish o =>
      show batchStepOK (getA s.batches bid) (getA (workerFinish s o).batches bid)
      cases hcur : s.current with
      | none => rw [workerFinish_idle hcur]; exact batchStepOK_refl _
      | some c =>
        obtain ⟨b, jq⟩ := c
        rw [workerFinish_run hcur]
        show batchStepOK (getA s.batches bid)
          (getA (batchCompleteCheck s.batches
            (setA s.jobs jq (finishJobUpdate o)) b) bid)
        rcases batchCompleteCheck_cases s.batches
            (setA s.jobs jq (finishJobUpdate o)) b bid with hsame | ⟨hb, br2, hbr2, -, hnew⟩
        · rw [hsame]; exact batchStepOK_refl _
        · rw [hbr2, hnew]
          show br2.status = JobStatus.completed ∨
            batchEdge br2.status JobStatus.completed
          obtain ⟨br3, hbr3, -, hstat3⟩ := hs.curBatch bid jq (by rw [hcur, hb])
          rw [hbr2] at hbr3
          obtain rfl : br2 = br3 := Option.some.inj hbr3
          rcases hstat3 with h' | h'
          · rw [h']; exact Or.inr trivial
          · rw [h']; exact Or.inr trivial
  refine ⟨hmain, ?_⟩
  intro a b' ha hb hcanc
  rw [ha, hb] at hmain
  rcases hmain with h | h
  · rw [← h, hcanc]; simp
  · rw [hcanc] at h
    exact batchEdge_cancelled_not_processing h

/-! ## Concrete example traces -/

/-- An existing `.pdf` input. -/
def pdfA : PathInfo := ⟨"/in/a.pdf", "a.pdf", true, ".pdf"⟩

/-- A second existing `.pdf` input. -/
def pdfB : PathInfo := ⟨"/in/b.pdf", "b.pdf", true, ".pdf"⟩

/-- A path that does not exist on disk. -/
def missingPdf : PathInfo := ⟨"/in/missing.pdf", "missing.pdf", false, ".pdf"⟩

/-- Submission of a two-file batch `b1` with fresh job ids `j1`, `j2`. -/
def exCreate : Ev := Ev.createB "b1" [("j1", pdfA), ("j2", pdfB)]

def exSt1 : St := applyEv initSt exCreate

/-- `exSt1` after the worker dequeues `j1` (now Processing). -/
def exSt2 : St := applyEv exSt1 Ev.wbegin

/-- `exSt2` after `cancel_batch("b1")`: `j2` Cancelled, batch
Cancelled, `j1` still in flight. -/
def exSt3 : St := applyEv exSt2 (Ev.cancelB "b1")

/-- `exSt3` after `j1` finishes successfully: the all-terminal check
fires and overwrites the batch status. -/
def exSt4 : St := applyEv exSt3 (Ev.wfinish (ExecOutcome.success 1 "a.xlsx"))

theorem reachable_exSt1 : Reachable exSt1 :=
  Reachable.step Reachable.start ⟨rfl, by decide, fun it _ => rfl⟩

theorem reachable_exSt2 : Reachable exSt2 :=
  Reachable.step reachable_exSt1 trivial

theorem reachable_exSt3 : Reachable exSt3 :=
  Reachable.step reachable_exSt2 trivial

/-- C2, counterexample to the claim as stated: a reachable trace —
create a batch of two jobs, let the worker start the first, cancel the
batch (status Cancelled), then let the in-flight job finish — after
which the batch's status is Completed: a Cancelled batch does
transition to Completed. -/
theorem batch_cancelled_then_completed :
    Reachable exSt3 ∧
    (getA exSt3.batches "b1").map BatchRec.status = some JobStatus.cancelled ∧
    exSt4 = applyEv exSt3 (Ev.wfinish (ExecOutcome.success 1 "a.xlsx")) ∧
    (getA exSt4.batches "b1").map BatchRec.status = some JobStatus.completed :=
  ⟨reachable_exSt3, by decide, rfl, by decide⟩

/-- C1, witness: the per-step theorem applied to the empty processor
and the concrete two-file submission. -/
theorem job_status_transitions_valid_witness :
    jobStepOK (getA initSt.jobs "j1")
      (getA (applyEv initSt exCreate).jobs "j1") ∧
    (∀ a b, getA initSt.jobs "j1" = some a →
      getA (applyEv initSt exCreate).jobs "j1" = some b →
      isTerminal a.status → b.status = a.status) :=
  job_status_transitions_valid initSt Reachable.start exCreate
    ⟨rfl, by decide, fun it _ => rfl⟩ "j1"

/-- C2, witness: the per-step theorem applied to the reachable state
`exSt3` and the finishing of the in-flight job. -/
theorem batch_status_transitions_witness :
    batchStepOK (getA exSt3.batches "b1")
      (getA (applyEv exSt3
        (Ev.wfinish (ExecOutcome.success 1 "a.xlsx"))).batches "b1") ∧
    (∀ a b, getA exSt3.batches "b1" = some a →
      getA (applyEv exSt3
        (Ev.wfinish (ExecOutcome.success 1 "a.xlsx"))).batches "b1" = some b →
      a.status = JobStatus.cancelled → b.status ≠ JobStatus.processing) :=
  batch_status_transitions exSt3 reachable_exSt3
    (Ev.wfinish (ExecOutcome.success 1 "a.xlsx")) trivial "b1"

/-! ## Functional correctness of the public operations -/

/-- C3.  `cancel_batch(id)`: when a batch with that id exists, every
member job currently Pending transitions to Cancelled, every other job
(member Processing/terminal, or non-member) is left untouched, the
batch's status becomes Cancelled (other batches unchanged, queue and
worker untouched) and the call returns `True`; when no such batch
exists the call returns `False` and the state is unchanged. -/
theorem cancel_batch_spec (s : St) (bid : String) :
    (∀ br, getA s.batches bid = some br →
      (cancel_batch s bid).1 = true ∧
      (∀ j jb, getA s.jobs j = some jb →
        (j ∈ br.jobIds ∧ jb.status = JobStatus.pending →
          getA (cancel_batch s bid).2.jobs j =
            some { jb with status := JobStatus.cancelled }) ∧
        (¬(j ∈ br.jobIds ∧ jb.status = JobStatus.pending) →
          getA (cancel_batch s bid).2.jobs j = some jb)) ∧
      getA (cancel_batch s bid).2.batches bid =
        some { br with status := JobStatus.cancelled } ∧
      (∀ bid', bid' ≠ bid →
        getA (cancel_batch s bid).2.batches bid' = getA s.batches bid') ∧
      (cancel_batch s bid).2.queue = s.queue ∧
      (cancel_batch s bid).2.current = s.current) ∧
    (getA s.batches bid = none → cancel_batch s bid = (false, s)) := by
  constructor
  · intro br hbr
    have hcb : cancel_batch s bid = (true, { s with
        jobs := mapVals (fun k jb =>
          if k ∈ br.jobIds ∧ jb.status = JobStatus.pending then
            { jb with status := JobStatus.cancelled } else jb) s.jobs
        batches := setA s.batches bid
          (fun b => { b with status := JobStatus.cancelled }) }) := by
      unfold cancel_batch
      rw [hbr]
    rw [hcb]
    dsimp only
    refine ⟨rfl, ?_, ?_, ?_, rfl, rfl⟩
    · intro j jb hjb
      constructor
      · intro hc
        rw [getA_mapVals, hjb]
        simp only [Option.map_some', if_pos hc]
      · intro hc
        rw [getA_mapVals, hjb]
        simp only [Option.map_some', if_neg hc]
    · rw [getA_setA_self, hbr]
      rfl
    · intro bid' hne
      exact getA_setA_ne _ hne
  · intro hnone
    unfold cancel_batch
    rw [hnone]

/-- C3, witness: cancelling the freshly created two-job batch flips
its Pending jobs and its status and returns `True`; cancelling an
unknown id returns `False` and leaves the state alone. -/
theorem cancel_batch_spec_witness :
    (cancel_batch exSt1 "b1").1 = true ∧
    getA (cancel_batch exSt1 "b1").2.jobs "j2" =
      some { mkPendingJob "j2" pdfB with status := JobStatus.cancelled } ∧
    getA (cancel_batch exSt1 "b1").2.batches "b1" =
      some { status := JobStatus.cancelled, jobIds := ["j1", "j2"] } ∧
    cancel_batch exSt1 "zz" = (false, exSt1) := by
  obtain ⟨hsome, -⟩ := cancel_batch_spec exSt1 "b1"
  obtain ⟨-, hnone⟩ := cancel_batch_spec exSt1 "zz"
  have h := hsome ⟨JobStatus.pending, ["j1", "j2"]⟩ (by decide)
  refine ⟨h.1, ?_, h.2.2.1, hnone (by decide)⟩
  have h2 := (h.2.1 "j2" (mkPendingJob "j2" pdfB) (by decide)).1
    ⟨by decide, rfl⟩
  exact h2

/-- C5.  When the worker dequeues an entry whose referenced job is
missing from the store or already Cancelled, it discards the entry
without executing anything: the jobs and batches are unchanged (no
status change), no rate-limit delay is charged, and the worker is
immediately free for the next entry (`current` stays empty, the queue
has simply lost its head). -/
theorem worker_skips_cancelled_or_missing (s : St) (b : Option String)
    (j : String) (rest : List (Option String × String))
    (hcur : s.current = none) (hq : s.queue = (b, j) :: rest)
    (hskip : getA s.jobs j = none ∨
      ∃ jb, getA s.jobs j = some jb ∧ jb.status = JobStatus.cancelled) :
    workerBegin s = { s with queue := rest } ∧
    (workerBegin s).jobs = s.jobs ∧
    (workerBegin s).batches = s.batches ∧
    (workerBegin s).delays = s.delays ∧
    (workerBegin s).current = none := by
  have heq : workerBegin s = { s with queue := rest } := by
    rcases hskip with h | ⟨jb, hjb, hcanc⟩
    · exact workerBegin_skip_missing hcur hq h
    · exact workerBegin_skip_cancelled hcur hq hjb hcanc
  rw [heq]
  exact ⟨rfl, rfl, rfl, rfl, hcur⟩

/-- C5, witness: after the cancelled-batch trace finishes, the queue
still holds the reference to the cancelled job `j2`; the worker drops
it silently. -/
theorem worker_skips_cancelled_or_missing_witness :
    workerBegin exSt4 = { exSt4 with queue := [] } ∧
    (workerBegin exSt4).jobs = exSt4.jobs ∧
    (workerBegin exSt4).batches = exSt4.batches ∧
    (workerBegin exSt4).delays = exSt4.delays ∧
    (workerBegin exSt4).current = none :=
  worker_skips_cancelled_or_missing exSt4 (some "b1") "j2" []
    (by decide) (by decide)
    (Or.inr ⟨{ mkPendingJob "j2" pdfB with status := JobStatus.cancelled },
      by decide, rfl⟩)

/-- C8.  When task execution raises — in `validate_pdf` (the
Extraction Service) or in `export_to_excel` (the Report Exporter) —
the job transitions to Failed with the error message recorded and
`completed_at` set, its progress stays at the last observed milestone
(30 after the validate step began, 70 after the export step began),
all other jobs are untouched, the queue is intact and the worker frees
itself for the next entry; `workerFinish` is total, so no error
escapes the core. -/
theorem failed_job_error_handling (s : St) (b : Option String) (j : String)
    (jb : PDFJob) (msg : String) (inv : Nat)
    (hcur : s.current = some (b, j)) (hjb : getA s.jobs j = some jb) :
    (getA (workerFinish s (ExecOutcome.failValidate msg)).jobs j =
      some { jb with
        status := JobStatus.failed, completedAt := true,
        error := some msg, progress := 30 } ∧
     (∀ j', j' ≠ j → getA (workerFinish s (ExecOutcome.failValidate msg)).jobs j'
        = getA s.jobs j') ∧
     (workerFinish s (ExecOutcome.failValidate msg)).current = none ∧
     (workerFinish s (ExecOutcome.failValidate msg)).queue = s.queue) ∧
    (getA (workerFinish s (ExecOutcome.failExport inv msg)).jobs j =
      some { jb with
        status := JobStatus.failed, completedAt := true,
        error := some msg, invoicesFound := some inv, progress := 70 } ∧
     (∀ j', j' ≠ j → getA (workerFinish s (ExecOutcome.failExport inv msg)).jobs j'
        = getA s.jobs j') ∧
     (workerFinish s (ExecOutcome.failExport inv msg)).current = none ∧
     (workerFinish s (ExecOutcome.failExport inv msg)).queue = s.queue) := by
  constructor
  · rw [workerFinish_run hcur]
    refine ⟨?_, ?_, rfl, rfl⟩
    · show getA (setA s.jobs j _) j = _
      rw [getA_setA_self, hjb]
      rfl
    · intro j' hne
      exact getA_setA_ne _ hne
  · rw [workerFinish_run hcur]
    refine ⟨?_, ?_, rfl, rfl⟩
    · show getA (setA s.jobs j _) j = _
      rw [getA_setA_self, hjb]
      rfl
    · intro j' hne
      exact getA_setA_ne _ hne

/-- C8, witness: the in-flight job `j1` of `exSt2` failing in either
collaborator ends Failed with the message recorded and the milestone
progress, with its sibling `j2` untouched. -/
theorem failed_job_error_handling_witness :
    (getA (workerFinish exSt2 (ExecOutcome.failValidate "boom")).jobs "j1" =
      some { startJobUpdate (mkPendingJob "j1" pdfA) with
        status := JobStatus.failed, completedAt := true,
        error := some "boom", progress := 30 } ∧
     (∀ j', j' ≠ "j1" →
        getA (workerFinish exSt2 (ExecOutcome.failValidate "boom")).jobs j'
          = getA exSt2.jobs j') ∧
     (workerFinish exSt2 (ExecOutcome.failValidate "boom")).current = none ∧
     (workerFinish exSt2 (ExecOutcome.failValidate "boom")).queue
       = exSt2.queue) ∧
    (getA (workerFinish exSt2 (ExecOutcome.failExport 2 "boom")).jobs "j1" =
      some { startJobUpdate (mkPendingJob "j1" pdfA) with
        status := JobStatus.failed, completedAt := true,
        error := some "boom", invoicesFound := some 2, progress := 70 } ∧
     (∀ j', j' ≠ "j1" →
        getA (workerFinish exSt2 (ExecOutcome.failExport 2 "boom")).jobs j'
          = getA exSt2.jobs j') ∧
     (workerFinish exSt2 (ExecOutcome.failExport 2 "boom")).current = none ∧
     (workerFinish exSt2 (ExecOutcome.failExport 2 "boom")).queue
       = exSt2.queue) :=
  failed_job_error_handling exSt2 (some "b1") "j1"
    (startJobUpdate (mkPendingJob "j1" pdfA)) "boom" 2 (by decide) (by decide)

/-- C9.  `get_job` and `get_batch` on an id not registered in the
store return `None` rather than raising; both are pure reads
(`St → Option _`), so the store cannot change. -/
theorem get_unknown_returns_none (s : St) (id : String)
    (hj : ∀ p ∈ s.jobs, p.1 ≠ id) (hb : ∀ p ∈ s.batches, p.1 ≠ id) :
    get_job s id = none ∧ get_batch s id = none :=
  ⟨(getA_eq_none_iff _ _).mpr hj, (getA_eq_none_iff _ _).mpr hb⟩

/-- C9, witness: an id registered nowhere in the populated example
state yields `None` from both lookups. -/
theorem get_unknown_returns_none_witness :
    get_job exSt1 "zz" = none ∧ get_batch exSt1 "zz" = none :=
  get_unknown_returns_none exSt1 "zz" (by decide) (by decide)

/-- C10.  `add_single_job` raises `FileNotFoundError` when the path
does not exist and `ValueError` when its lowercased suffix is not
`.pdf`; in either case nothing is registered and nothing is enqueued
(the state is unchanged) — whereas `create_batch` on the same path
raises nothing and silently skips it: it registers the batch with no
member job, leaving the job store and queue as they were. -/
theorem add_single_job_raises (s : St) (jid : String) (p : PathInfo)
    (bid : String) :
    (p.present = false →
      add_single_job s jid p =
        Except.error (AddError.fileNotFound ("File not found: " ++ p.path))) ∧
    (p.present = true → lowerStr p.suffix ≠ ".pdf" →
      add_single_job s jid p =
        Except.error (AddError.valueError "Only PDF files are allowed")) ∧
    (validPdf p = false →
      applyEv s (Ev.singleJ jid p) = s ∧
      (create_batch s bid [(jid, p)]).1.jobs = s.jobs ∧
      (create_batch s bid [(jid, p)]).1.queue = s.queue ∧
      (create_batch s bid [(jid, p)]).2 = ⟨JobStatus.pending, []⟩ ∧
      getA (create_batch s bid [(jid, p)]).1.batches bid =
        some ⟨JobStatus.pending, []⟩ ∨ ¬ getA s.batches bid = none) := by
  refine ⟨?_, ?_, ?_⟩
  · intro h
    unfold add_single_job
    rw [if_pos h]
  · intro h1 h2
    unfold add_single_job
    rw [if_neg (by rw [h1]; exact Bool.noConfusion), if_pos h2]
  · intro hv
    have hflt : [(jid, p)].filter (fun it => validPdf it.2) = [] := by
      simp [List.filter_cons, hv]
    by_cases hfresh : getA s.batches bid = none
    · refine Or.inl ⟨?_, ?_, ?_, ?_, ?_⟩
      · show (match add_single_job s jid p with
          | Except.ok (s', _) => s'
          | Except.error _ => s) = s
        unfold add_single_job
        by_cases h1 : p.present = false
        · rw [if_pos h1]
        · have hpt : p.present = true := by
            cases hp : p.present
            · exact absurd hp h1
            · rfl
          have h2 : lowerStr p.suffix ≠ ".pdf" := by
            intro hc
            have hvt : validPdf p = true := by
              unfold validPdf
              rw [hpt, hc]
              decide
            rw [hv] at hvt
            exact Bool.noConfusion hvt
          rw [if_neg h1, if_pos h2]
      · show s.jobs ++ ([(jid, p)].filter (fun it => validPdf it.2)).map
            (fun it => (it.1, mkPendingJob it.1 it.2)) = s.jobs
        rw [hflt]
        simp
      · show s.queue ++ ([(jid, p)].filter (fun it => validPdf it.2)).map
            (fun it => (some bid, it.1)) = s.queue
        rw [hflt]
        simp
      · show (⟨JobStatus.pending, ([(jid, p)].filter
            (fun it => validPdf it.2)).map (·.1)⟩ : BatchRec) = _
        rw [hflt]
        rfl
      · show getA (s.batches ++ [(bid, (⟨JobStatus.pending,
            ([(jid, p)].filter (fun it => validPdf it.2)).map (·.1)⟩ : BatchRec))]) bid = _
        rw [hflt, getA_append_right _ hfresh]
        simp [getA]
    · exact Or.inr hfresh

/-- C10, witness: a missing path makes `add_single_job` raise
`FileNotFoundError` and leaves the state unchanged, while
`create_batch` on the same path succeeds with an empty batch. -/
theorem add_single_job_raises_witness :
    (add_single_job initSt "j9" missingPdf =
      Except.error (AddError.fileNotFound "File not found: /in/missing.pdf")) ∧
    applyEv initSt (Ev.singleJ "j9" missingPdf) = initSt ∧
    (create_batch initSt "b9" [("j9", missingPdf)]).1.jobs = initSt.jobs ∧
    getA (create_batch initSt "b9" [("j9", missingPdf)]).1.batches "b9" =
      some ⟨JobStatus.pending, []⟩ := by
  have h := add_single_job_raises initSt "j9" missingPdf "b9"
  have h1 := h.1 (by decide)
  have h3 := h.2.2 (by decide)
  rcases h3 with ⟨ha, hb, -, -, he⟩ | hc
  · exact ⟨by rw [h1]; rfl, ha, hb, he⟩
  · exact absurd rfl hc

/-- C4 (amended).  `create_batch` creates exactly one fresh Pending
job per task descriptor whose path exists and whose lowercased suffix
is `.pdf` — other descriptors are silently skipped — preserving input
order; it registers the batch and those jobs in the store, enqueues
their references in the same order after the existing queue, leaves
other batches alone, and returns the created batch. -/
theorem create_batch_spec (s : St) (bid : String)
    (items : List (String × PathInfo))
    (hbid : getA s.batches bid = none)
    (hnodup : (items.map (·.1)).Nodup)
    (hfresh : ∀ it ∈ items, getA s.jobs it.1 = none) :
    (create_batch s bid items).2 =
      ⟨JobStatus.pending, (items.filter (fun it => validPdf it.2)).map (·.1)⟩ ∧
    getA (create_batch s bid items).1.batches bid =
      some ⟨JobStatus.pending,
        (items.filter (fun it => validPdf it.2)).map (·.1)⟩ ∧
    (∀ it ∈ items.filter (fun it => validPdf it.2),
      getA (create_batch s bid items).1.jobs it.1 =
        some (mkPendingJob it.1 it.2)) ∧
    (create_batch s bid items).1.jobs = s.jobs ++
      (items.filter (fun it => validPdf it.2)).map
        (fun it => (it.1, mkPendingJob it.1 it.2)) ∧
    (create_batch s bid items).1.queue = s.queue ++
      (items.filter (fun it => validPdf it.2)).map
        (fun it => (some bid, it.1)) ∧
    (∀ bid', bid' ≠ bid →
      getA (create_batch s bid items).1.batches bid' =
        getA s.batches bid') := by
  refine ⟨rfl, ?_, ?_, rfl, rfl, ?_⟩
  · show getA (s.batches ++ [(bid, (⟨JobStatus.pending,
        (items.filter (fun it => validPdf it.2)).map (·.1)⟩ : BatchRec))]) bid = _
    rw [getA_append_right _ hbid]
    simp [getA]
  · intro it hit
    show getA (s.jobs ++ (items.filter (fun it => validPdf it.2)).map
        (fun it => (it.1, mkPendingJob it.1 it.2))) it.1 = _
    rw [getA_append_right _ (hfresh it (List.mem_of_mem_filter hit))]
    exact getA_map_pair (·.1) (fun it => mkPendingJob it.1 it.2) _
      (valid_ids_nodup hnodup) it hit
  · intro bid' hne
    show getA (s.batches ++ [(bid, (⟨JobStatus.pending,
        (items.filter (fun it => validPdf it.2)).map (·.1)⟩ : BatchRec))]) bid'
      = getA s.batches bid'
    rcases getA_append_cases s.batches [(bid, (⟨JobStatus.pending,
        (items.filter (fun it => validPdf it.2)).map (·.1)⟩ : BatchRec))] bid'
      with hsame | ⟨hnone, htail⟩
    · rw [hsame]
    · rw [hnone, htail]
      simp [getA, hne]

/-- C4, counterexample to the claim as stated: one task descriptor
whose path does not exist yields a batch with zero jobs — nothing is
registered for it and nothing is enqueued — not the one-job-per-
descriptor the claim requires. -/
theorem create_batch_skips_invalid :
    (create_batch initSt "b9" [("j9", missingPdf)]).2.jobIds = [] ∧
    (create_batch initSt "b9" [("j9", missingPdf)]).1.jobs = [] ∧
    (create_batch initSt "b9" [("j9", missingPdf)]).1.queue = [] ∧
    getA (create_batch initSt "b9" [("j9", missingPdf)]).1.batches "b9" =
      some ⟨JobStatus.pending, []⟩ := by
  refine ⟨?_, ?_, ?_, ?_⟩ <;> decide

/-- C4, witness: the two-file submission registers both jobs Pending,
in order, and enqueues both references. -/
theorem create_batch_spec_witness :
    (create_batch initSt "b1" [("j1", pdfA), ("j2", pdfB)]).2 =
      ⟨JobStatus.pending, ([("j1", pdfA), ("j2", pdfB)].filter
        (fun it => validPdf it.2)).map (·.1)⟩ ∧
    getA (create_batch initSt "b1" [("j1", pdfA), ("j2", pdfB)]).1.batches "b1" =
      some ⟨JobStatus.pending, ([("j1", pdfA), ("j2", pdfB)].filter
        (fun it => validPdf it.2)).map (·.1)⟩ ∧
    (∀ it ∈ [("j1", pdfA), ("j2", pdfB)].filter (fun it => validPdf it.2),
      getA (create_batch initSt "b1" [("j1", pdfA), ("j2", pdfB)]).1.jobs it.1 =
        some (mkPendingJob it.1 it.2)) ∧
    (create_batch initSt "b1" [("j1", pdfA), ("j2", pdfB)]).1.jobs =
      initSt.jobs ++ ([("j1", pdfA), ("j2", pdfB)].filter
        (fun it => validPdf it.2)).map
          (fun it => (it.1, mkPendingJob it.1 it.2)) ∧
    (create_batch initSt "b1" [("j1", pdfA), ("j2", pdfB)]).1.queue =
      initSt.queue ++ ([("j1", pdfA), ("j2", pdfB)].filter
        (fun it => validPdf it.2)).map (fun it => (some "b1", it.1)) ∧
    (∀ bid', bid' ≠ "b1" →
      getA (create_batch initSt "b1" [("j1", pdfA), ("j2", pdfB)]).1.batches bid' =
        getA initSt.batches bid') :=
  create_batch_spec initSt "b1" [("j1", pdfA), ("j2", pdfB)] rfl
    (by decide) (fun it _ => rfl)

/-! ## Batch derived metrics (C6) -/

/-- The claim's wording for `completed`: the count of member jobs
whose status is Completed or Failed. -/
def specCompletedCount (b : BatchJob) : Nat :=
  (b.jobs.filter (fun j => decide (j.status = JobStatus.completed ∨
    j.status = JobStatus.failed))).length

/-- The claim's wording for `successful`: the count of Completed member
jobs. -/
def specSuccessfulCount (b : BatchJob) : Nat :=
  (b.jobs.filter (fun j => decide (j.status = JobStatus.completed))).length

/-- The claim's wording for `failed`: the count of Failed member jobs. -/
def specFailedCount (b : BatchJob) : Nat :=
  (b.jobs.filter (fun j => decide (j.status = JobStatus.failed))).length

/-- C6 (amended).  The derived metrics computed on read satisfy:
`completed` counts member jobs whose status is Completed or Failed,
`successful` counts Completed members, `failed` counts Failed members,
`progress` is 0 when there are no jobs and otherwise the binary64
evaluation of `int((completed / total) * 100)` — which is not always
`floor(completed * 100 / total)` (see the counterexample with 29 of 50
jobs completed). -/
theorem batch_metrics (b : BatchJob) :
    b.completed_jobs = specCompletedCount b ∧
    b.successful_jobs = specSuccessfulCount b ∧
    b.failed_jobs = specFailedCount b ∧
    (b.total_jobs = 0 → b.progress = 0) ∧
    (b.total_jobs ≠ 0 →
      b.progress = pyProgress b.completed_jobs b.total_jobs) := by
  refine ⟨?_, ?_, ?_, fun h => by simp [BatchJob.progress, h],
    fun h => by simp [BatchJob.progress, h]⟩
  · unfold BatchJob.completed_jobs specCompletedCount
    rw [show (fun (j : PDFJob) =>
        [JobStatus.completed, JobStatus.failed].contains j.status) =
        (fun (j : PDFJob) => decide (j.status = JobStatus.completed ∨
          j.status = JobStatus.failed)) from
      funext (fun j => by cases h : j.status <;> rfl)]
    exact List.countP_eq_length_filter _ _
  · unfold BatchJob.successful_jobs specSuccessfulCount
    rw [show (fun (j : PDFJob) => j.status == JobStatus.completed) =
        (fun (j : PDFJob) => decide (j.status = JobStatus.completed)) from
      funext (fun j => by cases h : j.status <;> rfl)]
    exact List.countP_eq_length_filter _ _
  · unfold BatchJob.failed_jobs specFailedCount
    rw [show (fun (j : PDFJob) => j.status == JobStatus.failed) =
        (fun (j : PDFJob) => decide (j.status = JobStatus.failed)) from
      funext (fun j => by cases h : j.status <;> rfl)]
    exact List.countP_eq_length_filter _ _

/-- A Completed job object, as left by a successful execution. -/
def jobDoneC : PDFJob :=
  { mkPendingJob "jc" pdfA with status := JobStatus.completed }

/-- A 50-job batch with 29 Completed members and 21 still Pending. -/
def bigBatch : BatchJob :=
  ⟨"bx", List.replicate 29 jobDoneC ++ List.replicate 21 (mkPendingJob "jp" pdfA),
    JobStatus.processing⟩

/-- C6, counterexample to the claim as stated: with 50 member jobs of
which 29 are Completed, the code's `int((29 / 50) * 100)` — evaluated
in binary64, where `29 / 50 = 0.58` rounds below the exact value —
reports 57, but `floor(completed / total * 100) = floor(58) = 58`. -/
theorem batch_progress_not_floor :
    bigBatch.total_jobs = 50 ∧
    bigBatch.completed_jobs = 29 ∧
    bigBatch.progress = 57 ∧
    bigBatch.completed_jobs * 100 / bigBatch.total_jobs = 58 ∧
    bigBatch.progress ≠ bigBatch.completed_jobs * 100 / bigBatch.total_jobs :=
  ⟨by decide, by decide, by decide, by decide, by decide⟩

/-- C6, witness: the amended metric equations evaluated on the
concrete 50-job batch, with the nonempty-batch implication
discharged. -/
theorem batch_metrics_witness :
    bigBatch.completed_jobs = specCompletedCount bigBatch ∧
    bigBatch.progress = pyProgress bigBatch.completed_jobs bigBatch.total_jobs :=
  ⟨(batch_metrics bigBatch).1, (batch_metrics bigBatch).2.2.2.2 (by decide)⟩

/-! ## Draining a batch (C7) -/

/-- Repeatedly run one full worker iteration (dequeue + execute with
the given outcome), once per outcome, as `_process_queue` does while
draining the queue. -/
def runJobs (s : St) (outcomes : List ExecOutcome) : St :=
  outcomes.foldl (fun s o => workerFinish (workerBegin s) o) s

/-- The store entry of a submitted job after its execution finished
with outcome `o`. -/
def finJob (it : String × PathInfo) (o : ExecOutcome) : String × PDFJob :=
  (it.1, finishJobUpdate o (startJobUpdate (mkPendingJob it.1 it.2)))

theorem setA_append {α : Type} (l1 l2 : List (String × α)) (k : String)
    (f : α → α) : setA (l1 ++ l2) k f = setA l1 k f ++ setA l2 k f := by
  simp [setA, mapVals]

theorem setA_of_not_mem {α : Type} {l : List (String × α)} {k : String}
    {f : α → α} (h : ∀ p ∈ l, p.1 ≠ k) : setA l k f = l := by
  induction l with
  | nil => rfl
  | cons p l ih =>
    have htail := ih (fun q hq => h q (List.mem_cons_of_mem _ hq))
    unfold setA mapVals at htail ⊢
    simp only [List.map_cons]
    rw [if_neg (h p (List.mem_cons_self p l)), htail]

theorem setA_cons_self {α : Type} (k : String) (v : α)
    (l : List (String × α)) (f : α → α) :
    setA ((k, v) :: l) k f = (k, f v) :: setA l k f := by
  unfold setA mapVals
  simp

theorem getA_isSome_of_key {α : Type} {l : List (String × α)} {k : String}
    (h : k ∈ l.map (·.1)) : ∃ v, getA l k = some v := by
  induction l with
  | nil => simp at h
  | cons p l ih =>
    simp only [List.map_cons, List.mem_cons] at h
    by_cases hk : k = p.1
    · exact ⟨p.2, by simp [getA, hk]⟩
    · obtain ⟨v, hv⟩ := ih (h.resolve_left hk)
      exact ⟨v, by simp [getA, hk, hv]⟩

theorem isDone_finishJobUpdate (o : ExecOutcome) (jb : PDFJob) :
    isDoneStatus (finishJobUpdate o jb).status = true := by
  cases o <;> rfl

/-- Draining invariant: starting from a state whose queue holds exactly
the still-pending submissions of one batch (already-finished member
jobs in `done`, all terminal), running one worker iteration per
outcome finishes every job with its outcome, empties the queue, and —
because the final iteration sees every member terminal — leaves the
batch Completed (when anything was left to do). -/
theorem runJobs_drain (bid : String) :
    ∀ (todo : List (String × PathInfo)) (outcomes : List ExecOutcome)
      (done : List (String × PDFJob)) (bst : JobStatus) (d : Nat),
      outcomes.length = todo.length →
      (done.map (·.1) ++ todo.map (·.1)).Nodup →
      (∀ p ∈ done, isDoneStatus p.2.status = true) →
      ∃ d', runJobs
        ⟨done ++ todo.map (fun it => (it.1, mkPendingJob it.1 it.2)),
         [(bid, ⟨bst, done.map (·.1) ++ todo.map (·.1)⟩)],
         todo.map (fun it => (some bid, it.1)),
         none, d⟩ outcomes =
        ⟨done ++ List.zipWith finJob todo outcomes,
         [(bid, ⟨(if todo.isEmpty then bst else JobStatus.completed),
           done.map (·.1) ++ todo.map (·.1)⟩)],
         [], none, d'⟩ := by
  intro todo
  induction todo with
  | nil =>
    intro outcomes done bst d hlen hnodup hdone
    have houtnil : outcomes = [] := List.eq_nil_of_length_eq_zero (by simpa using hlen)
    subst houtnil
    exact ⟨d, by simp [runJobs]⟩
  | cons it todo' ih =>
    intro outcomes done bst d hlen hnodup hdone
    cases outcomes with
    | nil => exact absurd hlen (by simp)
    | cons o os =>
      have hlen' : os.length = todo'.length := by simpa using hlen
      rw [List.map_cons] at hnodup
      obtain ⟨nd1, nd2, disj⟩ := List.nodup_append.mp hnodup
      have hit_done : ∀ p ∈ done, p.1 ≠ it.1 := fun p hp hc =>
        disj (List.mem_map_of_mem _ hp) (hc ▸ List.mem_cons_self _ _)
      have hit_todo : it.1 ∉ todo'.map (·.1) := (List.nodup_cons.mp nd2).1
      have hit_todo' : ∀ q ∈ todo'.map (fun it => (it.1, mkPendingJob it.1 it.2)),
          q.1 ≠ it.1 := by
        intro q hq hc
        simp only [List.mem_map] at hq
        obtain ⟨x, hx, rfl⟩ := hq
        exact hit_todo (hc ▸ List.mem_map_of_mem _ hx)
      -- the state before this iteration
      set s0 : St :=
        ⟨done ++ (it :: todo').map (fun it => (it.1, mkPendingJob it.1 it.2)),
         [(bid, ⟨bst, done.map (·.1) ++ (it :: todo').map (·.1)⟩)],
         (it :: todo').map (fun it => (some bid, it.1)),
         none, d⟩ with hs0
      have hjb : getA s0.jobs it.1 = some (mkPendingJob it.1 it.2) := by
        show getA (done ++ (it :: todo').map
          (fun it => (it.1, mkPendingJob it.1 it.2))) it.1 = _
        rw [getA_append_right _ ((getA_eq_none_iff _ _).mpr hit_done)]
        simp [getA]
      have hbegin : workerBegin s0 =
          { s0 with
            queue := todo'.map (fun it => (some bid, it.1))
            jobs := setA s0.jobs it.1 startJobUpdate
            batches := beginBatches s0.batches (some bid)
            current := some (some bid, it.1) } :=
        workerBegin_run rfl rfl hjb (by simp [mkPendingJob])
      have hjobs1 : setA s0.jobs it.1 startJobUpdate =
          done ++ (it.1, startJobUpdate (mkPendingJob it.1 it.2)) ::
            todo'.map (fun it => (it.1, mkPendingJob it.1 it.2)) := by
        show setA (done ++ (it :: todo').map
          (fun it => (it.1, mkPendingJob it.1 it.2))) it.1 startJobUpdate = _
        rw [setA_append, setA_of_not_mem hit_done, List.map_cons,
          setA_cons_self, setA_of_not_mem hit_todo']
      have hbat1 : beginBatches s0.batches (some bid) =
          [(bid, ⟨JobStatus.processing,
            done.map (·.1) ++ (it :: todo').map (·.1)⟩)] := by
        show beginBatches [(bid, ⟨bst, _⟩)] (some bid) = _
        simp [beginBatches, setA, mapVals]
      -- the state during execution of `it`
      set s1 : St :=
        ⟨done ++ (it.1, startJobUpdate (mkPendingJob it.1 it.2)) ::
           todo'.map (fun it => (it.1, mkPendingJob it.1 it.2)),
         [(bid, ⟨JobStatus.processing,
           done.map (·.1) ++ (it :: todo').map (·.1)⟩)],
         todo'.map (fun it => (some bid, it.1)),
         some (some bid, it.1), d⟩ with hs1
      have hbegin' : workerBegin s0 = s1 := by
        rw [hbegin, hs1]
        show ({ s0 with
            queue := todo'.map (fun it => (some bid, it.1))
            jobs := setA s0.jobs it.1 startJobUpdate
            batches := beginBatches s0.batches (some bid)
            current := some (some bid, it.1) } : St) = _
        rw [hjobs1, hbat1]
      -- the job store after finishing `it`
      have hjobs2 : setA s1.jobs it.1 (finishJobUpdate o) =
          done ++ finJob it o ::
            todo'.map (fun it => (it.1, mkPendingJob it.1 it.2)) := by
        show setA (done ++ (it.1, startJobUpdate (mkPendingJob it.1 it.2)) ::
          todo'.map (fun it => (it.1, mkPendingJob it.1 it.2))) it.1
            (finishJobUpdate o) = _
        rw [show (done ++ (it.1, startJobUpdate (mkPendingJob it.1 it.2)) ::
          todo'.map (fun it => (it.1, mkPendingJob it.1 it.2))) =
          done ++ ((it.1, startJobUpdate (mkPendingJob it.1 it.2)) ::
          todo'.map (fun it => (it.1, mkPendingJob it.1 it.2))) from rfl,
          setA_append, setA_of_not_mem hit_done, setA_cons_self,
          setA_of_not_mem hit_todo']
        rfl
      have hAD : allMembersDone
          (done ++ finJob it o ::
            todo'.map (fun it => (it.1, mkPendingJob it.1 it.2)))
          ⟨JobStatus.processing, done.map (·.1) ++ (it :: todo').map (·.1)⟩ =
          todo'.isEmpty := by
        unfold allMembersDone
        dsimp only
        rw [List.all_append]
        have h1 : (done.map (·.1)).all (fun jid =>
            match getA (done ++ finJob it o ::
              todo'.map (fun it => (it.1, mkPendingJob it.1 it.2))) jid with
            | some jb => isDoneStatus jb.status
            | none => false) = true := by
          rw [List.all_eq_true]
          intro k hk
          obtain ⟨v, hv⟩ := getA_isSome_of_key hk
          rw [getA_append_left _ hv]
          exact hdone _ (getA_mem hv)
        rw [h1, Bool.true_and, List.map_cons, List.all_cons]
        have h2 : getA (done ++ finJob it o ::
            todo'.map (fun it => (it.1, mkPendingJob it.1 it.2))) it.1 =
            some (finJob it o).2 := by
          rw [getA_append_right _ ((getA_eq_none_iff _ _).mpr hit_done)]
          simp [getA, finJob]
        rw [h2]
        show (isDoneStatus (finJob it o).2.status &&
          (todo'.map (·.1)).all _) = todo'.isEmpty
        rw [show isDoneStatus (finJob it o).2.status = true from
          isDone_finishJobUpdate o _, Bool.true_and]
        cases todo' with
        | nil => rfl
        | cons q qs =>
          rw [List.map_cons, List.all_cons]
          have hq1done : ∀ p ∈ done, p.1 ≠ q.1 := by
            intro p hp hc
            exact disj (List.mem_map_of_mem _ hp)
              (hc ▸ List.mem_cons_of_mem _ (List.mem_map_of_mem _
                (List.mem_cons_self q qs)))
          have hq1it : q.1 ≠ it.1 := by
            intro hc
            exact hit_todo (hc ▸ List.mem_map_of_mem _ (List.mem_cons_self q qs))
          have h3 : getA (done ++ finJob it o ::
              (q :: qs).map (fun it => (it.1, mkPendingJob it.1 it.2))) q.1 =
              some (mkPendingJob q.1 q.2) := by
            rw [getA_append_right _ ((getA_eq_none_iff _ _).mpr hq1done)]
            have hqnd := (List.nodup_cons.mp ((List.nodup_cons.mp nd2).2)).1
            simp only [List.map_cons, getA, finJob]
            rw [if_neg hq1it]
            simp [getA]
          rw [h3]
          rfl
      have hfin : workerFinish s1 o =
          ⟨(done ++ [finJob it o]) ++
             todo'.map (fun it => (it.1, mkPendingJob it.1 it.2)),
           [(bid, ⟨(if todo'.isEmpty then JobStatus.completed
               else JobStatus.processing),
             (done ++ [finJob it o]).map (·.1) ++ todo'.map (·.1)⟩)],
           todo'.map (fun it => (some bid, it.1)),
           none,
           d + (if (todo'.map (fun it => ((some bid : Option String), it.1))).isEmpty
             then 0 else 1)⟩ := by
        rw [workerFinish_run (show s1.current = some (some bid, it.1) from rfl)]
        show ({ s1 with
          jobs := setA s1.jobs it.1 (finishJobUpdate o)
          batches := batchCompleteCheck s1.batches
            (setA s1.jobs it.1 (finishJobUpdate o)) (some bid)
          current := none
          delays := s1.delays + (if s1.queue.isEmpty then 0 else 1) } : St) = _
        rw [hjobs2]
        have hbcc : batchCompleteCheck s1.batches
            (done ++ finJob it o ::
              todo'.map (fun it => (it.1, mkPendingJob it.1 it.2))) (some bid) =
            [(bid, ⟨(if todo'.isEmpty then JobStatus.completed
                else JobStatus.processing),
              done.map (·.1) ++ (it :: todo').map (·.1)⟩)] := by
          show batchCompleteCheck [(bid, ⟨JobStatus.processing,
            done.map (·.1) ++ (it :: todo').map (·.1)⟩)] _ (some bid) = _
          unfold batchCompleteCheck
          dsimp only
          rw [show getA [(bid, (⟨JobStatus.processing,
            done.map (·.1) ++ (it :: todo').map (·.1)⟩ : BatchRec))] bid =
            some ⟨JobStatus.processing,
              done.map (·.1) ++ (it :: todo').map (·.1)⟩ from by simp [getA]]
          dsimp only
          rw [hAD]
          cases hemp : todo'.isEmpty
          · simp
          · simp [setA, mapVals]
        rw [hbcc]
        have hkeys : done.map (·.1) ++ (it :: todo').map (·.1) =
            (done ++ [finJob it o]).map (·.1) ++ todo'.map (·.1) := by
          simp [finJob]
        have hjshape : done ++ finJob it o ::
            todo'.map (fun it => (it.1, mkPendingJob it.1 it.2)) =
            (done ++ [finJob it o]) ++
              todo'.map (fun it => (it.1, mkPendingJob it.1 it.2)) := by
          simp
        rw [hkeys, hjshape]
      have hnodup' : ((done ++ [finJob it o]).map (·.1) ++
          todo'.map (·.1)).Nodup := by
        have : (done ++ [finJob it o]).map (·.1) ++ todo'.map (·.1) =
            done.map (·.1) ++ it.1 :: todo'.map (·.1) := by
          simp [finJob]
        rw [this]
        exact hnodup
      have hdone' : ∀ p ∈ done ++ [finJob it o],
          isDoneStatus p.2.status = true := by
        intro p hp
        rcases List.mem_append.mp hp with h | h
        · exact hdone p h
        · rw [List.mem_singleton.mp h]
          exact isDone_finishJobUpdate o _
      obtain ⟨d', ihEq⟩ := ih os (done ++ [finJob it o])
        (if todo'.isEmpty then JobStatus.completed else JobStatus.processing)
        (d + (if (todo'.map (fun it => ((some bid : Option String), it.1))).isEmpty
          then 0 else 1)) hlen' hnodup' hdone'
      refine ⟨d', ?_⟩
      have hrun : runJobs s0 (o :: os) =
          runJobs (workerFinish (workerBegin s0) o) os := rfl
      rw [hrun, hbegin', hfin, ihEq]
      have hjfinal : (done ++ [finJob it o]) ++ List.zipWith finJob todo' os =
          done ++ List.zipWith finJob (it :: todo') (o :: os) := by
        simp
      have hkfinal : (done ++ [finJob it o]).map (·.1) ++ todo'.map (·.1) =
          done.map (·.1) ++ (it :: todo').map (·.1) := by
        simp [finJob]
      have hstfinal : (if todo'.isEmpty then
          (if todo'.isEmpty then JobStatus.completed else JobStatus.processing)
          else JobStatus.completed) =
          (if (it :: todo').isEmpty then bst else JobStatus.completed) := by
        cases todo' <;> rfl
      rw [hjfinal, hkfinal, hstfinal]

theorem countP_split (jobs : List PDFJob) :
    jobs.countP (fun j => j.status == JobStatus.completed) +
      jobs.countP (fun j => j.status == JobStatus.failed) =
      jobs.countP (fun j =>
        [JobStatus.completed, JobStatus.failed].contains j.status) := by
  induction jobs with
  | nil => rfl
  | cons j l ih =>
    simp only [List.countP_cons]
    rw [← ih]
    cases h : j.status
    case pending =>
      rw [if_neg (show ¬((JobStatus.pending == JobStatus.completed) = true)
            by decide),
        if_neg (show ¬((JobStatus.pending == JobStatus.failed) = true)
          by decide),
        if_neg (show ¬(([JobStatus.completed,
          JobStatus.failed].contains JobStatus.pending) = true) by decide)]
      omega
    case processing =>
      rw [if_neg (show ¬((JobStatus.processing == JobStatus.completed) = true)
            by decide),
        if_neg (show ¬((JobStatus.processing == JobStatus.failed) = true)
          by decide),
        if_neg (show ¬(([JobStatus.completed,
          JobStatus.failed].contains JobStatus.processing) = true) by decide)]
      omega
    case completed =>
      rw [if_pos (show (JobStatus.completed == JobStatus.completed) = true
            by decide),
        if_neg (show ¬((JobStatus.completed == JobStatus.failed) = true)
          by decide),
        if_pos (show ([JobStatus.completed,
          JobStatus.failed].contains JobStatus.completed) = true by decide)]
      omega
    case failed =>
      rw [if_neg (show ¬((JobStatus.failed == JobStatus.completed) = true)
            by decide),
        if_pos (show (JobStatus.failed == JobStatus.failed) = true by decide),
        if_pos (show ([JobStatus.completed,
          JobStatus.failed].contains JobStatus.failed) = true by decide)]
      omega
    case cancelled =>
      rw [if_neg (show ¬((JobStatus.cancelled == JobStatus.completed) = true)
            by decide),
        if_neg (show ¬((JobStatus.cancelled == JobStatus.failed) = true)
          by decide),
        if_neg (show ¬(([JobStatus.completed,
          JobStatus.failed].contains JobStatus.cancelled) = true) by decide)]
      omega

theorem countP_all (l : List PDFJob) (p : PDFJob → Bool)
    (h : ∀ x ∈ l, p x = true) : l.countP p = l.length := by
  induction l with
  | nil => rfl
  | cons x l ih =>
    rw [List.countP_cons, if_pos (h x (List.mem_cons_self _ _)),
      ih (fun y hy => h y (List.mem_cons_of_mem _ hy))]
    simp

theorem filterMap_congr_mem {α β : Type} {l : List α} {f g : α → Option β}
    (h : ∀ a ∈ l, f a = g a) : l.filterMap f = l.filterMap g := by
  induction l with
  | nil => rfl
  | cons a l ih =>
    rw [List.filterMap_cons, List.filterMap_cons,
      h a (List.mem_cons_self _ _),
      ih (fun b hb => h b (List.mem_cons_of_mem _ hb))]

/-- Reading back every key of a store with distinct keys returns
exactly the stored job objects, in order. -/
theorem filterMap_getA (l : List (String × PDFJob))
    (h : (l.map (·.1)).Nodup) :
    (l.map (·.1)).filterMap (getA l) = l.map (·.2) := by
  induction l with
  | nil => rfl
  | cons p l ih =>
    have h' : (p.1 :: l.map (·.1)).Nodup := h
    obtain ⟨hp, hl⟩ := List.nodup_cons.mp h'
    simp only [List.map_cons, List.filterMap_cons]
    have h1 : getA (p :: l) p.1 = some p.2 := by simp [getA]
    rw [h1]
    have h2 : (l.map (·.1)).filterMap (getA (p :: l)) =
        (l.map (·.1)).filterMap (getA l) := by
      apply filterMap_congr_mem
      intro a ha
      have hne : a ≠ p.1 := fun hc => hp (hc ▸ ha)
      simp [getA, hne]
    rw [h2, ih hl]

theorem finJobs_keys : ∀ (items : List (String × PathInfo))
    (os : List ExecOutcome), os.length = items.length →
    (List.zipWith finJob items os).map (·.1) = items.map (·.1) := by
  intro items
  induction items with
  | nil => intro os _; simp
  | cons it its ih =>
    intro os hlen
    cases os with
    | nil => simp at hlen
    | cons o os' =>
      simp only [List.zipWith_cons_cons, List.map_cons]
      rw [ih os' (by simpa using hlen)]
      rfl

theorem finJobs_status : ∀ (items : List (String × PathInfo))
    (os : List ExecOutcome),
    ∀ j ∈ (List.zipWith finJob items os).map (·.2),
      j.status = JobStatus.completed ∨ j.status = JobStatus.failed := by
  intro items
  induction items with
  | nil => intro os j hj; simp at hj
  | cons it its ih =>
    intro os j hj
    cases os with
    | nil => simp at hj
    | cons o os' =>
      simp only [List.zipWith_cons_cons, List.map_cons, List.mem_cons] at hj
      rcases hj with rfl | hj
      · exact finishJobUpdate_status o _
      · exact ih os' j hj

/-- C7.  For every batch object, `successful + failed = completed` as
an identity of the derived metrics; and submitting a batch of N ≥ 1
valid tasks and fully draining the queue — one worker iteration per
job, with any mix of success and failure outcomes and no cancellation
— yields `completed = N`, `successful + failed = N` and batch status
Completed. -/
theorem batch_drain_results :
    (∀ b : BatchJob, b.successful_jobs + b.failed_jobs = b.completed_jobs) ∧
    (∀ (bid : String) (items : List (String × PathInfo))
        (outcomes : List ExecOutcome),
      (items.map (·.1)).Nodup →
      (∀ it ∈ items, validPdf it.2 = true) →
      outcomes.length = items.length →
      items ≠ [] →
      ∃ bv, batchView (runJobs (create_batch initSt bid items).1 outcomes) bid
          = some bv ∧
        bv.status = JobStatus.completed ∧
        bv.total_jobs = items.length ∧
        bv.completed_jobs = items.length ∧
        bv.successful_jobs + bv.failed_jobs = items.length) := by
  constructor
  · intro b
    exact countP_split b.jobs
  · intro bid items outcomes hnodup hvalid hlen hne
    have hfilter : items.filter (fun it => validPdf it.2) = items :=
      List.filter_eq_self.mpr hvalid
    have hst : (create_batch initSt bid items).1 =
        ⟨([] : List (String × PDFJob)) ++
           items.map (fun it => (it.1, mkPendingJob it.1 it.2)),
         [(bid, ⟨JobStatus.pending,
           (([] : List (String × PDFJob)).map (·.1)) ++ items.map (·.1)⟩)],
         items.map (fun it => ((some bid : Option String), it.1)),
         none, 0⟩ := by
      show (⟨([] : List (String × PDFJob)) ++
          (items.filter (fun it => validPdf it.2)).map
            (fun it => (it.1, mkPendingJob it.1 it.2)),
        ([] : List (String × BatchRec)) ++ [(bid, ⟨JobStatus.pending,
          (items.filter (fun it => validPdf it.2)).map (·.1)⟩)],
        ([] : List (Option String × String)) ++
          (items.filter (fun it => validPdf it.2)).map
            (fun it => ((some bid : Option String), it.1)),
        none, 0⟩ : St) = _
      rw [hfilter]
      rfl
    obtain ⟨d', hdrain⟩ := runJobs_drain bid items outcomes []
      JobStatus.pending 0 hlen (by simpa using hnodup)
      (by intro p hp; simp at hp)
    have hempty : items.isEmpty = false := by
      cases items with
      | nil => exact absurd rfl hne
      | cons a l => rfl
    rw [hst, hdrain, hempty]
    have hkeys2 : (List.zipWith finJob items outcomes).map (·.1) =
        items.map (·.1) := finJobs_keys items outcomes hlen
    have hnodup2 : ((List.zipWith finJob items outcomes).map (·.1)).Nodup := by
      rw [hkeys2]; exact hnodup
    refine ⟨⟨bid, (List.zipWith finJob items outcomes).map (·.2),
      JobStatus.completed⟩, ?_, rfl, ?_, ?_, ?_⟩
    · show (getA [(bid, (⟨JobStatus.completed,
        (([] : List (String × PDFJob)).map (·.1)) ++ items.map (·.1)⟩ : BatchRec))]
          bid).map _ = _
      have hb : getA [(bid, (⟨JobStatus.completed,
          (([] : List (String × PDFJob)).map (·.1)) ++
            items.map (·.1)⟩ : BatchRec))] bid =
          some ⟨JobStatus.completed,
            (([] : List (String × PDFJob)).map (·.1)) ++
              items.map (·.1)⟩ := by
        simp [getA]
      rw [hb, Option.map_some']
      congr 1
      show (⟨bid, ((([] : List (String × PDFJob)).map (·.1)) ++
        items.map (·.1)).filterMap
          (getA (([] : List (String × PDFJob)) ++
            List.zipWith finJob items outcomes)), JobStatus.completed⟩ :
        BatchJob) = _
      congr 1
      show (items.map (·.1)).filterMap
        (getA (List.zipWith finJob items outcomes)) = _
      rw [← hkeys2]
      exact filterMap_getA _ hnodup2
    · show ((List.zipWith finJob items outcomes).map (·.2)).length =
        items.length
      rw [List.length_map, List.length_zipWith, hlen, Nat.min_self]
    · show ((List.zipWith finJob items outcomes).map (·.2)).countP
        (fun j => [JobStatus.completed, JobStatus.failed].contains j.status) =
        items.length
      rw [countP_all _ _ (fun x hx => by
        show ([JobStatus.completed, JobStatus.failed].contains x.status) = true
        rcases finJobs_status items outcomes x hx with h | h <;> rw [h] <;>
          decide)]
      rw [List.length_map, List.length_zipWith, hlen, Nat.min_self]
    · show ((List.zipWith finJob items outcomes).map (·.2)).countP
          (fun j => j.status == JobStatus.completed) +
        ((List.zipWith finJob items outcomes).map (·.2)).countP
          (fun j => j.status == JobStatus.failed) = items.length
      rw [countP_split]
      rw [countP_all _ _ (fun x hx => by
        show ([JobStatus.completed, JobStatus.failed].contains x.status) = true
        rcases finJobs_status items outcomes x hx with h | h <;> rw [h] <;>
          decide)]
      rw [List.length_map, List.length_zipWith, hlen, Nat.min_self]

/-- C7, counterexample to the claim as stated: submitting a batch of
N = 0 tasks leaves nothing to drain, the all-terminal check never
runs, and the batch stays Pending — not Completed as the claim
requires (the counts do hold: 0 = N). -/
theorem batch_drain_empty_stays_pending :
    runJobs (create_batch initSt "b0" []).1 [] =
      (create_batch initSt "b0" []).1 ∧
    (batchView (create_batch initSt "b0" []).1 "b0").map BatchJob.status =
      some JobStatus.pending ∧
    JobStatus.pending ≠ JobStatus.completed :=
  ⟨rfl, by decide, by decide⟩

/-- C7, witness: a two-job batch drained with one success and one
failure reports completed = 2, successful + failed = 2, status
Completed. -/
theorem batch_drain_results_witness :
    ∃ bv, batchView (runJobs
        (create_batch initSt "b1" [("j1", pdfA), ("j2", pdfB)]).1
        [ExecOutcome.success 1 "a.xlsx", ExecOutcome.failValidate "boom"]) "b1"
      = some bv ∧
      bv.status = JobStatus.completed ∧
      bv.total_jobs = [("j1", pdfA), ("j2", pdfB)].length ∧
      bv.completed_jobs = [("j1", pdfA), ("j2", pdfB)].length ∧
      bv.successful_jobs + bv.failed_jobs = [("j1", pdfA), ("j2", pdfB)].length :=
  batch_drain_results.2 "b1" [("j1", pdfA), ("j2", pdfB)]
    [ExecOutcome.success 1 "a.xlsx", ExecOutcome.failValidate "boom"]
    (by decide) (by decide) (by decide) (by decide)
